import Mathlib

/-!
# Verification of the atma parser-combinator core

Shallow embedding of the parsing core of the `atma` palette application:
the `Success`/`Failure` result model (`src/parse/result.rs`), the primitive
parsers (`src/parse/primitive.rs`), the combinator library
(`src/parse_old/combinator.rs`), the color grammar (`src/parse/color.rs`)
and the `name` parser of the cell-addressing grammar
(`src/parse/selection.rs`).

Conventions of the embedding:

* Rust string slices become `List Char`; slicing `&text[..n]` / `&text[n..]`
  at a char boundary becomes `List.take n` / `List.drop n`.
* A Rust parser `FnMut(&str) -> ParseResult<V>` becomes
  `List Char → Option (ParseResult V)`; the `Option` layer represents
  potential divergence of the repetition loops, which are embedded with an
  explicit fuel parameter (a `none` result means the loop failed to finish
  within the given fuel, for any fuel — i.e. the Rust code loops forever).
* Machine integers: the `u64` accumulator of the integer parsers is a `Nat`
  together with explicit comparisons against `2^64 - 1` exactly where the
  Rust code uses `checked_mul` / `checked_add`; the destination type `T` of
  `uint::<T>` is represented by its maximal value `tmax`, and `try_into`
  succeeds exactly when the value is `≤ tmax`.
* The `parse_old` generation of the library names the already-matched part
  of a `Failure` `token`; the `parse` generation names the same field
  `context` (see `src/parse/result.rs`).  The embedding uses the single
  field name `context` for it throughout.
-/

namespace Atma

/-! ## Character helpers (Rust `char` methods) -/

/-- Rust `char::is_whitespace`: the Unicode White_Space property
(U+0009–U+000D, U+0020, U+0085, U+00A0, U+1680, U+2000–U+200A, U+2028,
U+2029, U+202F, U+205F, U+3000). -/
def rustIsWhitespace (c : Char) : Bool :=
  (0x09 ≤ c.toNat && c.toNat ≤ 0x0d) || c.toNat == 0x20 || c.toNat == 0x85 ||
  c.toNat == 0xa0 || c.toNat == 0x1680 ||
  (0x2000 ≤ c.toNat && c.toNat ≤ 0x200a) || c.toNat == 0x2028 ||
  c.toNat == 0x2029 || c.toNat == 0x202f || c.toNat == 0x205f ||
  c.toNat == 0x3000

/-- Rust `char::to_digit(radix)`: digit value of `c` in the given radix,
`none` if `c` is not a digit of that radix. -/
def charToDigit (radix : Nat) (c : Char) : Option Nat :=
  let v : Option Nat :=
    if '0' ≤ c ∧ c ≤ '9' then some (c.toNat - '0'.toNat)
    else if 'a' ≤ c ∧ c ≤ 'z' then some (c.toNat - 'a'.toNat + 10)
    else if 'A' ≤ c ∧ c ≤ 'Z' then some (c.toNat - 'A'.toNat + 10)
    else none
  match v with
  | some d => if d < radix then some d else none
  | none => none

/-- Rust `char::eq_ignore_ascii_case`. -/
def eqIgnoreAsciiCase (a b : Char) : Bool :=
  let lower (c : Char) : Nat :=
    if 'A' ≤ c ∧ c ≤ 'Z' then c.toNat + 32 else c.toNat
  lower a == lower b

/-- Rust `str::trim` on a char list: drop whitespace from both ends. -/
def trimWs (l : List Char) : List Char :=
  ((l.dropWhile rustIsWhitespace).reverse.dropWhile rustIsWhitespace).reverse

/-! ## Result model (`src/parse/result.rs`) -/

/-- `ParseIntegerOverflow` (`src/parse/primitive.rs`): an overflow error
while parsing an integer, carrying the integer-type label, the digit text
and the accumulated value (`u128` in Rust, a `Nat` here). -/
structure ParseIntegerOverflow where
  int_type : String
  int_text : List Char
  value : Nat
deriving Repr, DecidableEq

/-- The `source` chain of a failure: either a detached `FailureOwned`
(fields `context`, `expected`, `source` — see `Failure::to_owned`) or a
`ParseIntegerOverflow`.  Other error types (e.g. float conversion errors)
are represented by `externalError`. -/
inductive ErrSource where
  | overflow (o : ParseIntegerOverflow)
  | failureOwned (context : List Char) (expected : String)
      (source : Option ErrSource)
  | externalError (description : String)
deriving Repr

/-- `Success<'t, V>`: parsed value, consumed token, unconsumed rest. -/
structure Success (V : Type) where
  value : V
  token : List Char
  rest : List Char
deriving Repr

/-- `Failure<'t>`: the already-matched text (`context` in
`src/parse/result.rs`, `token` in the `parse_old` generation), the
human-readable expectation, an optional cause, and the text the failing
parser was invoked on. -/
structure Failure where
  context : List Char
  expected : String
  source : Option ErrSource
  rest : List Char
deriving Repr

/-- `ParseResult<'t, V> = Result<Success<'t, V>, Failure<'t>>`. -/
abbrev ParseResult (V : Type) : Type := Except Failure (Success V)

/-- A parser on borrowed text; `none` models divergence (see module
docstring). -/
abbrev Parser (V : Type) : Type := List Char → Option (ParseResult V)

namespace Success

/-- `Success::map_value`. -/
def mapValue (s : Success V) (f : V → U) : Success U :=
  { value := f s.value, token := s.token, rest := s.rest }

/-- `Success::discard_value`. -/
def discardValue (s : Success V) : Success Unit :=
  { value := (), token := s.token, rest := s.rest }

/-- `Success::tokenize_value`. -/
def tokenizeValue (s : Success V) : Success (List Char) :=
  { value := s.token, token := s.token, rest := s.rest }

/-- `Success::join`: joins two sequential successes, discarding values;
the token is `&text[..len1 + len2]`. -/
def join (s : Success V) (other : Success U) (text : List Char) :
    Success Unit :=
  { value := (), token := text.take (s.token.length + other.token.length),
    rest := other.rest }

/-- `Success::join_with`: like `join` but combining the values with `f`. -/
def joinWith (s : Success V) (other : Success U) (text : List Char)
    (f : V → U → T) : Success T :=
  { value := f s.value other.value,
    token := text.take (s.token.length + other.token.length),
    rest := other.rest }

/-- `Success::join_failure`: expands the context of a failure that follows
this success; sets `rest` back to the full original `text`. -/
def joinFailure (s : Success V) (other : Failure) (text : List Char) :
    Failure :=
  { other with
    context := text.take (s.token.length + other.context.length),
    rest := text }

/-- Modelled from the spec: `Success::take_value` of the `parse_old`
result module (absent from `src/`): detaches the parsed value, leaving a
unit success with the same token and rest.  Used by `pair`, `postfix`,
`circumfix`, `bracket` in `src/parse_old/combinator.rs`. -/
def takeValue (s : Success V) : V × Success Unit :=
  (s.value, s.discardValue)

end Success

namespace Failure

/-- `Failure::to_owned`, as a `source` node. -/
def toOwned (f : Failure) : ErrSource :=
  .failureOwned f.context f.expected f.source

/-- `Failure::rest_continuing`: `&self.rest[self.context.len()..]`. -/
def restContinuing (f : Failure) : List Char :=
  f.rest.drop f.context.length

end Failure

/-- `ParseResultExt::source_for`: wraps any failure as the source of a new
failure with the given `expected`, preserving `context` and `rest`. -/
def sourceFor (r : ParseResult V) (expected : String) : ParseResult V :=
  match r with
  | .ok s => .ok s
  | .error f =>
      .error { context := f.context, expected := expected,
               source := some f.toOwned, rest := f.rest }

/-- `ParseResultExt::with_join_context`. -/
def withJoinContext (r : ParseResult V) (success : Success U)
    (text : List Char) : ParseResult V :=
  match r with
  | .ok s => .ok s
  | .error f => .error (success.joinFailure f text)

/-- `ParseResultExt::with_new_context`: overwrites `context` and `rest`. -/
def withNewContext (r : ParseResult V) (context text : List Char) :
    ParseResult V :=
  match r with
  | .ok s => .ok s
  | .error f => .error { f with context := context, rest := text }

/-- `ParseResultExt::map_value`. -/
def prMapValue (r : ParseResult V) (f : V → U) : ParseResult U :=
  match r with
  | .ok s => .ok (s.mapValue f)
  | .error f => .error f

/-- `ParseResultExt::tokenize_value`. -/
def prTokenizeValue (r : ParseResult V) : ParseResult (List Char) :=
  match r with
  | .ok s => .ok s.tokenizeValue
  | .error f => .error f

/-- `ParseResultExt::discard_value`. -/
def prDiscardValue (r : ParseResult V) : ParseResult Unit :=
  match r with
  | .ok s => .ok s.discardValue
  | .error f => .error f

/-- Modelled from the spec: `with_join_previous` of the `parse_old` result
module (absent from `src/`): on success, merge with the previous success
via `join_with` keeping the new value (spec §4.1 `Success::join_with`); on
failure, extend the failure's context backward over the previous success
and reset `rest` to the original text (spec §4.1 `with_join_context`,
matching `Success::join_failure` in `src/parse/result.rs`). -/
def withJoinPrevious (r : ParseResult V) (prev : Success U)
    (text : List Char) : ParseResult V :=
  match r with
  | .ok s => .ok (prev.joinWith s text (fun _ v => v))
  | .error f => .error (prev.joinFailure f text)

/-! ## Primitive parsers (`src/parse/primitive.rs`) -/

/-- `char(c)`: parses exactly the char `c`. -/
def charP (c : Char) : Parser Char := fun text =>
  some (match text with
  | t :: ts =>
      if t = c then .ok { value := c, token := [c], rest := ts }
      else .error { context := [], expected := c.toString, source := none,
                    rest := text }
  | [] => .error { context := [], expected := c.toString, source := none,
                   rest := text })

/-- Loop of `char_in`: try `char(c)` for each option in order. -/
def charInGo (opts text : List Char) : List Char → Option (ParseResult Char)
  | [] => some (.error { context := [], rest := text,
                         expected := "one of " ++ String.mk opts,
                         source := none })
  | c :: cs =>
      match charP c text with
      | some (.ok s) => some (.ok s)
      | _ => charInGo opts text cs

/-- `char_in(opts)`: first `char(c)` that succeeds, for `c` in `opts`. -/
def charInP (opts : List Char) : Parser Char := fun text =>
  charInGo opts text opts

/-- `char_matching(f)`: parses one char satisfying `f`. -/
def charMatchingP (f : Char → Bool) : Parser Char := fun text =>
  some (match text with
  | c :: cs =>
      if f c then .ok { value := c, token := [c], rest := cs }
      else .error { context := [], expected := "char satisfying predicate",
                    source := none, rest := text }
  | [] => .error { context := [], expected := "char satisfying predicate",
                   source := none, rest := text })

/-- `char_whitespace`. -/
def charWhitespaceP : Parser Char := fun text =>
  (charMatchingP rustIsWhitespace text).map (sourceFor · "whitespace char")

/-- `literal(expect)`: exact prefix match. -/
def literalP (expect : List Char) : Parser (List Char) := fun text =>
  some (if expect.isPrefixOf text then
    .ok { value := text.take expect.length, token := text.take expect.length,
          rest := text.drop expect.length }
  else
    .error { context := [], expected := String.mk expect, source := none,
             rest := text })

/-- Loop of `literal_ignore_ascii_case` (the running byte index `idx` of
the Rust loop becomes the count of chars matched so far). -/
def litIcaseGo (expect text : List Char) :
    List Char → List Char → Nat → ParseResult (List Char)
  | [], _, idx => .ok
      { value := text.take idx, token := text.take idx,
        rest := text.drop idx }
  | _ :: _, [], idx => .error
      { context := text.take idx, rest := text,
        expected := "ignore case literal " ++ String.mk expect,
        source := none }
  | e :: es, t :: ts, idx =>
      if eqIgnoreAsciiCase e t then litIcaseGo expect text es ts (idx + 1)
      else .error
        { context := text.take idx, rest := text,
          expected := "ignore case literal " ++ String.mk expect,
          source := none }

/-- `literal_ignore_ascii_case(expect)`. -/
def literalIgnoreAsciiCaseP (expect : List Char) : Parser (List Char) :=
  fun text => some (litIcaseGo expect text expect text 0)

/-- `prefix_radix_token`: parses `0b`, `0o` or `0x`. -/
def prefixRadixTokenP : Parser (List Char) := fun text =>
  some (if ['0','b'].isPrefixOf text ∨ ['0','o'].isPrefixOf text ∨
           ['0','x'].isPrefixOf text then
    .ok { value := text.take 2, token := text.take 2, rest := text.drop 2 }
  else
    .error { context := [], rest := text, expected := "0[box]",
             source := none })

/-! ## Combinators (`src/parse_old/combinator.rs`) -/

/-- Modelled from the spec: the `null` parser of the `parse` module (absent
from `src/`), the separator used to define `repeat` as `intersperse` with
no separator (spec §4.3): it always succeeds consuming nothing. -/
def nullP : Parser Unit := fun text =>
  some (.ok { value := (), token := [], rest := text })

/-- `maybe(p)`: never fails; `None` with empty token on failure of `p`. -/
def maybeC (p : Parser V) : Parser (Option V) := fun text =>
  (p text).map fun r =>
    match r with
    | .ok s => .ok (s.mapValue some)
    | .error _ => .ok { value := none, token := [], rest := text }

/-- `atomic(p)`: like `maybe` but only zero-token failures become `None`. -/
def atomicC (p : Parser V) : Parser (Option V) := fun text =>
  (p text).map fun r =>
    match r with
    | .ok s => .ok (s.mapValue some)
    | .error f =>
        if f.context.isEmpty then
          .ok { value := none, token := [], rest := text }
        else .error f

/-- `atomic_ignore_whitespace(p)`: failures whose token is whitespace-only
become `None`, advancing past that whitespace. -/
def atomicIgnoreWhitespaceC (p : Parser V) : Parser (Option V) := fun text =>
  (p text).map fun r =>
    match r with
    | .ok s => .ok (s.mapValue some)
    | .error f =>
        if (trimWs f.context).isEmpty then
          .ok { value := none, token := f.context,
                rest := f.rest.drop f.context.length }
        else .error f

/-- `prefix(parser, prefix_parser)`: `prefix_parser` then `parser`, keeping
only `parser`'s value. -/
def prefixC (p : Parser V) (pre : Parser U) : Parser V := fun text =>
  match pre text with
  | none => none
  | some (.error f) => some (.error f)
  | some (.ok suc) =>
      (p suc.rest).map fun r => withJoinPrevious r suc text

/-- `pair(fst_parser, snd_parser)`: both values as a 2-tuple. -/
def pairC (pf : Parser V) (ps : Parser U) : Parser (V × U) := fun text =>
  match pf text with
  | none => none
  | some (.error f) => some (.error f)
  | some (.ok s) =>
      let (fst, suc) := s.takeValue
      (ps suc.rest).map fun r =>
        prMapValue (withJoinPrevious r suc text) fun snd => (fst, snd)

/-- `postfix(parser, postfix_parser)`: `parser` then `postfix_parser`,
keeping only `parser`'s value. -/
def postfixC (p : Parser V) (post : Parser U) : Parser V := fun text =>
  match p text with
  | none => none
  | some (.error f) => some (.error f)
  | some (.ok s) =>
      let (val, suc) := s.takeValue
      (post suc.rest).map fun r =>
        prMapValue (withJoinPrevious r suc text) fun _ => val

/-- `circumfix(parser, circumfix_parser)`: wrap, `parser`, wrap. -/
def circumfixC (p : Parser V) (circ : Parser U) : Parser V := fun text =>
  match circ text with
  | none => none
  | some (.error f) => some (.error f)
  | some (.ok suc) =>
      match (p suc.rest).map fun r => withJoinPrevious r suc text with
      | none => none
      | some (.error f) => some (.error f)
      | some (.ok s) =>
          let (val, suc') := s.takeValue
          (circ suc'.rest).map fun r =>
            prMapValue (withJoinPrevious r suc' text) fun _ => val

/-- `bracket(parser, prefix_parser, postfix_parser)`. -/
def bracketC (p : Parser V) (pre : Parser U) (post : Parser T) : Parser V :=
  fun text =>
  match pre text with
  | none => none
  | some (.error f) => some (.error f)
  | some (.ok suc) =>
      match (p suc.rest).map fun r => withJoinPrevious r suc text with
      | none => none
      | some (.error f) => some (.error f)
      | some (.ok s) =>
          let (val, suc') := s.takeValue
          (post suc'.rest).map fun r =>
            prMapValue (withJoinPrevious r suc' text) fun _ => val

/-- Loop of `any_literal_map`. -/
def anyLitGo (pf : List Char → Parser G) (expected : String)
    (text : List Char) : List (List Char × V) → Option (ParseResult V)
  | [] => some (.error { context := [], rest := text, expected := expected,
                         source := none })
  | (pat, v) :: rest =>
      match pf pat text with
      | none => none
      | some (.ok s) => some (.ok (s.mapValue fun _ => v))
      | some (.error _) => anyLitGo pf expected text rest

/-- `any_literal_map(parser, expected, map)`. -/
def anyLiteralMapC (pf : List Char → Parser G) (expected : String)
    (map : List (List Char × V)) : Parser V := fun text =>
  anyLitGo pf expected text map

/-- `high.map_or(true, |h| count < h)`: the guard of the upper loop. -/
def highCond (high : Option Nat) (count : Nat) : Bool :=
  match high with
  | none => true
  | some h => count < h

/-- `high.map_or(false, |h| count >= h)`: the post-increment break test. -/
def highBreak (high : Option Nat) (count : Nat) : Bool :=
  match high with
  | none => false
  | some h => h ≤ count

/-- Upper (`while high.map_or(true, ...)`) loop of `intersperse`, with an
explicit fuel bounding the number of iterations. -/
def interHigh (p : Parser V) (sep : Parser U) (text : List Char)
    (high : Option Nat) :
    Nat → Nat → Success Unit → Option (ParseResult Nat)
  | 0, count, suc =>
      if highCond high count then none
      else some (.ok (suc.mapValue fun _ => count))
  | fuel + 1, count, suc =>
      if highCond high count then
        match (prefixC p sep suc.rest).map prDiscardValue with
        | none => none
        | some (.error _) => some (.ok (suc.mapValue fun _ => count))
        | some (.ok next) =>
            let suc' := suc.joinWith next text fun _ v => v
            if highBreak high (count + 1) then
              some (.ok (suc'.mapValue fun _ => count + 1))
            else interHigh p sep text high fuel (count + 1) suc'
      else some (.ok (suc.mapValue fun _ => count))

/-- Lower (`while count < low`) loop of `intersperse`. -/
def interLow (p : Parser V) (sep : Parser U) (text : List Char) (low : Nat)
    (high : Option Nat) :
    Nat → Nat → Success Unit → Option (ParseResult Nat)
  | 0, count, suc =>
      if count < low then none
      else interHigh p sep text high 0 count suc
  | fuel + 1, count, suc =>
      if count < low then
        match (prefixC p sep suc.rest).map
            (fun r => withJoinPrevious (prDiscardValue r) suc text) with
        | none => none
        | some (.error f) => some (.error f)
        | some (.ok suc') => interLow p sep text low high fuel (count + 1) suc'
      else interHigh p sep text high (fuel + 1) count suc

/-- `intersperse(low, high, parser, inner_parser)`: repetitions separated
by `sep`, returning the number of successes. -/
def intersperseC (low : Nat) (high : Option Nat) (p : Parser V)
    (sep : Parser U) (fuel : Nat) : Parser Nat := fun text =>
  match p text with
  | none => none
  | some (.ok first) => interLow p sep text low high fuel 1 first.discardValue
  | some (.error f) =>
      if low = 0 then some (.ok { value := 0, token := [], rest := text })
      else some (.error f)

/-- `repeat(low, high, parser)` = `intersperse` with the `null`
separator. -/
def repeatC (low : Nat) (high : Option Nat) (p : Parser V) (fuel : Nat) :
    Parser Nat :=
  intersperseC low high p nullP fuel

/-- Upper loop of `intersperse_collect`. -/
def interColHigh (p : Parser V) (sep : Parser U) (text : List Char)
    (high : Option Nat) :
    Nat → Nat → Success (List V) → Option (ParseResult (List V))
  | 0, count, suc =>
      if highCond high count then none else some (.ok suc)
  | fuel + 1, count, suc =>
      if highCond high count then
        match prefixC p sep suc.rest with
        | none => none
        | some (.error _) => some (.ok suc)
        | some (.ok next) =>
            let suc' := suc.joinWith next text fun vals v => vals ++ [v]
            if highBreak high (count + 1) then some (.ok suc')
            else interColHigh p sep text high fuel (count + 1) suc'
      else some (.ok suc)

/-- Lower loop of `intersperse_collect`; note that a failure here is
propagated raw (`let next_suc = prefix(...)(suc.rest)?;` in the source),
without re-joining the context or restoring `rest`. -/
def interColLow (p : Parser V) (sep : Parser U) (text : List Char)
    (low : Nat) (high : Option Nat) :
    Nat → Nat → Success (List V) → Option (ParseResult (List V))
  | 0, count, suc =>
      if count < low then none
      else interColHigh p sep text high 0 count suc
  | fuel + 1, count, suc =>
      if count < low then
        match prefixC p sep suc.rest with
        | none => none
        | some (.error f) => some (.error f)
        | some (.ok next) =>
            interColLow p sep text low high fuel (count + 1)
              (suc.joinWith next text fun vals v => vals ++ [v])
      else interColHigh p sep text high (fuel + 1) count suc

/-- `intersperse_collect(low, high, parser, inner_parser)`. -/
def intersperseCollectC (low : Nat) (high : Option Nat) (p : Parser V)
    (sep : Parser U) (fuel : Nat) : Parser (List V) := fun text =>
  match p text with
  | none => none
  | some (.ok first) =>
      interColLow p sep text low high fuel 1 (first.mapValue fun v => [v])
  | some (.error f) =>
      if low = 0 then some (.ok { value := [], token := [], rest := text })
      else some (.error f)

/-- `repeat_collect(low, high, parser)`. -/
def repeatCollectC (low : Nat) (high : Option Nat) (p : Parser V)
    (fuel : Nat) : Parser (List V) :=
  intersperseCollectC low high p nullP fuel

/-- Upper loop of `intersperse_until`.  Faithful to the source: the end
parser is invoked on the original `text` (not the current position), the
separator is parsed once alone and then again inside
`prefix(parser, inner_parser)`. -/
def interUntilHigh (p : Parser V) (sep : Parser U) (endp : Parser T)
    (text : List Char) (high : Option Nat) :
    Nat → Nat → Success Unit → Option (ParseResult Nat)
  | 0, count, suc =>
      if highCond high count then none
      else some (.ok (suc.mapValue fun _ => count))
  | fuel + 1, count, suc =>
      if highCond high count then
        match endp text with
        | none => none
        | some (.ok _) => some (.ok (suc.mapValue fun _ => count))
        | some (.error _) =>
            match (sep suc.rest).map prDiscardValue with
            | none => none
            | some (.error _) => some (.ok (suc.mapValue fun _ => count))
            | some (.ok sInner) =>
                let suc1 := suc.joinWith sInner text fun _ v => v
                match endp text with
                | none => none
                | some (.ok _) => some (.ok (suc1.mapValue fun _ => count))
                | some (.error _) =>
                    match (prefixC p sep suc1.rest).map prDiscardValue with
                    | none => none
                    | some (.error _) =>
                        some (.ok (suc1.mapValue fun _ => count))
                    | some (.ok next) =>
                        let suc2 := suc1.joinWith next text fun _ v => v
                        if highBreak high (count + 1) then
                          some (.ok (suc2.mapValue fun _ => count + 1))
                        else
                          interUntilHigh p sep endp text high fuel
                            (count + 1) suc2
      else some (.ok (suc.mapValue fun _ => count))

/-- Lower loop of `intersperse_until`. -/
def interUntilLow (p : Parser V) (sep : Parser U) (endp : Parser T)
    (text : List Char) (low : Nat) (high : Option Nat) :
    Nat → Nat → Success Unit → Option (ParseResult Nat)
  | 0, count, suc =>
      if count < low then none
      else interUntilHigh p sep endp text high 0 count suc
  | fuel + 1, count, suc =>
      if count < low then
        match endp text with
        | none => none
        | some (.ok _) => some (.ok (suc.mapValue fun _ => count))
        | some (.error _) =>
            match (sep suc.rest).map
                (fun r => withJoinPrevious (prDiscardValue r) suc text) with
            | none => none
            | some (.error f) => some (.error f)
            | some (.ok suc1) =>
                match endp text with
                | none => none
                | some (.ok _) => some (.ok (suc1.mapValue fun _ => count))
                | some (.error _) =>
                    match (p suc1.rest).map
                        (fun r =>
                          withJoinPrevious (prDiscardValue r) suc1 text) with
                    | none => none
                    | some (.error f) => some (.error f)
                    | some (.ok suc2) =>
                        interUntilLow p sep endp text low high fuel
                          (count + 1) suc2
      else interUntilHigh p sep endp text high (fuel + 1) count suc

/-- `intersperse_until(low, high, parser, inner_parser, end_parser)`. -/
def intersperseUntilC (low : Nat) (high : Option Nat) (p : Parser V)
    (sep : Parser U) (endp : Parser T) (fuel : Nat) : Parser Nat :=
  fun text =>
  match endp text with
  | none => none
  | some (.ok e) => some (.ok (e.mapValue fun _ => 0))
  | some (.error _) =>
      match p text with
      | none => none
      | some (.ok first) =>
          interUntilLow p sep endp text low high fuel 1 first.discardValue
      | some (.error f) =>
          if low = 0 then
            some (.ok { value := 0, token := [], rest := text })
          else some (.error f)

/-- `repeat_until(low, high, parser, end_parser)`. -/
def repeatUntilC (low : Nat) (high : Option Nat) (p : Parser V)
    (endp : Parser T) (fuel : Nat) : Parser Nat :=
  intersperseUntilC low high p nullP endp fuel

/-- Upper loop of `intersperse_collect_until` (here the separator and the
parser are each parsed once, unlike `intersperse_until`). -/
def interColUntilHigh (p : Parser V) (sep : Parser U) (endp : Parser T)
    (text : List Char) (high : Option Nat) :
    Nat → Nat → Success (List V) → Option (ParseResult (List V))
  | 0, count, suc =>
      if highCond high count then none else some (.ok suc)
  | fuel + 1, count, suc =>
      if highCond high count then
        match endp text with
        | none => none
        | some (.ok _) => some (.ok suc)
        | some (.error _) =>
            match sep suc.rest with
            | none => none
            | some (.error _) => some (.ok suc)
            | some (.ok sInner) =>
                let suc1 := suc.joinWith sInner text fun vals _ => vals
                match endp text with
                | none => none
                | some (.ok _) => some (.ok suc1)
                | some (.error _) =>
                    match p suc1.rest with
                    | none => none
                    | some (.error _) => some (.ok suc1)
                    | some (.ok next) =>
                        let suc2 :=
                          suc1.joinWith next text fun vals v => vals ++ [v]
                        if highBreak high (count + 1) then some (.ok suc2)
                        else
                          interColUntilHigh p sep endp text high fuel
                            (count + 1) suc2
      else some (.ok suc)

/-- Lower loop of `intersperse_collect_until`; sub-parser failures are
propagated raw (`(&mut inner_parser)(suc.rest)?` in the source). -/
def interColUntilLow (p : Parser V) (sep : Parser U) (endp : Parser T)
    (text : List Char) (low : Nat) (high : Option Nat) :
    Nat → Nat → Success (List V) → Option (ParseResult (List V))
  | 0, count, suc =>
      if count < low then none
      else interColUntilHigh p sep endp text high 0 count suc
  | fuel + 1, count, suc =>
      if count < low then
        match endp text with
        | none => none
        | some (.ok _) => some (.ok suc)
        | some (.error _) =>
            match sep suc.rest with
            | none => none
            | some (.error f) => some (.error f)
            | some (.ok sInner) =>
                let suc1 := suc.joinWith sInner text fun vals _ => vals
                match endp text with
                | none => none
                | some (.ok _) => some (.ok suc1)
                | some (.error _) =>
                    match p suc1.rest with
                    | none => none
                    | some (.error f) => some (.error f)
                    | some (.ok next) =>
                        interColUntilLow p sep endp text low high fuel
                          (count + 1)
                          (suc1.joinWith next text fun vals v => vals ++ [v])
      else interColUntilHigh p sep endp text high (fuel + 1) count suc

/-- `intersperse_collect_until(low, high, parser, inner_parser,
end_parser)`. -/
def intersperseCollectUntilC (low : Nat) (high : Option Nat) (p : Parser V)
    (sep : Parser U) (endp : Parser T) (fuel : Nat) : Parser (List V) :=
  fun text =>
  match endp text with
  | none => none
  | some (.ok e) => some (.ok (e.mapValue fun _ => ([] : List V)))
  | some (.error _) =>
      match p text with
      | none => none
      | some (.ok first) =>
          interColUntilLow p sep endp text low high fuel 1
            (first.mapValue fun v => [v])
      | some (.error f) =>
          if low = 0 then
            some (.ok { value := [], token := [], rest := text })
          else some (.error f)

/-- `repeat_collect_until(low, high, parser, end_parser)`. -/
def repeatCollectUntilC (low : Nat) (high : Option Nat) (p : Parser V)
    (endp : Parser T) (fuel : Nat) : Parser (List V) :=
  intersperseCollectUntilC low high p nullP endp fuel

/-! ## Integer and whitespace primitives (`src/parse/primitive.rs`) -/

/-- `u64::MAX`: the bound of the wide accumulator. -/
def u64Max : Nat := 18446744073709551615

/-- `u32::MAX`. -/
def u32Max : Nat := 4294967295

/-- `whitespace`: one or more whitespace chars. -/
def whitespaceP : Parser (List Char) := fun text =>
  (repeatC 1 none charWhitespaceP (text.length + 3) text).map fun r =>
    sourceFor (prTokenizeValue r) "whitespace"

/-- The failure constructed when integer parsing overflows: the context is
the full digit token, the source carries the type label, the digit text
and the accumulated value, and `rest` is the original input. -/
def overflowFailure (intType : String) (tok text : List Char) (v : Nat) :
    Failure :=
  { context := tok, expected := "overflow of " ++ intType ++ " value",
    source := some (.overflow
      { int_type := intType, int_text := tok, value := v }),
    rest := text }

/-- The digit-accumulation loop of `uint_digits_value`: `_` is skipped;
`checked_mul` fails when `res * radix` exceeds `u64::MAX` (reporting the
pre-multiply accumulator), `checked_add` when `res * radix + val` does
(reporting that sum, computed in `u128`). -/
def uintAccumGo (intType : String) (radix : Nat) (tok text : List Char) :
    Nat → List Char → Except Failure Nat
  | res, [] => .ok res
  | res, c :: cs =>
      if c = '_' then uintAccumGo intType radix tok text res cs
      else
        if res * radix ≤ u64Max then
          if res * radix + (charToDigit radix c).getD 0 ≤ u64Max then
            uintAccumGo intType radix tok text
              (res * radix + (charToDigit radix c).getD 0) cs
          else .error (overflowFailure intType tok text
            (res * radix + (charToDigit radix c).getD 0))
        else .error (overflowFailure intType tok text res)

/-- `uint_digits_value::<T>(int_type, low, high, radix)`; the destination
type `T : TryFrom<u64>` is represented by its maximal value `tmax`. -/
def uintDigitsValueP (intType : String) (tmax : Nat) (low : Nat)
    (high : Option Nat) (radix : Nat) : Parser Nat := fun text =>
  match repeatC low high
      (charMatchingP fun c => (charToDigit radix c).isSome || c == '_')
      (text.length + low + 2) text with
  | none => none
  | some r =>
      match sourceFor r
          (intType ++ " integer digits with radix " ++ toString radix) with
      | .error f => some (.error f)
      | .ok digitsSuc =>
          match uintAccumGo intType radix digitsSuc.token text 0
              digitsSuc.token with
          | .error f => some (.error f)
          | .ok res =>
              if res ≤ tmax then
                some (.ok (digitsSuc.mapValue fun _ => res))
              else
                some (.error
                  (overflowFailure intType digitsSuc.token text res))

/-- `uint_value::<T>(int_type, radix)`. -/
def uintValueP (intType : String) (tmax : Nat) (radix : Nat) : Parser Nat :=
  uintDigitsValueP intType tmax 1 none radix

/-- The radix selected by `uint`'s `match radix_suc.value` dispatch;
`none` is the `unreachable!()` arm. -/
def radixOf : Option (List Char) → Option Nat
  | some l =>
      if l = ['0','b'] then some 2
      else if l = ['0','o'] then some 8
      else if l = ['0','x'] then some 16
      else none
  | none => some 10

/-- `uint::<T>(int_type)`: optional radix prefix, then `uint_value`.  The
`unreachable!()` branch and the `.unwrap()` of the infallible `maybe`
parse are represented by dead `none` branches. -/
def uintP (intType : String) (tmax : Nat) : Parser Nat := fun text =>
  match maybeC prefixRadixTokenP text with
  | some (.ok radixSuc) =>
      match radixOf radixSuc.value with
      | none => none
      | some radix =>
          (uintValueP intType tmax radix radixSuc.rest).map fun r =>
            withJoinPrevious
              (sourceFor r ("parse " ++ intType ++ " value")) radixSuc text
  | _ => none

/-! ## The `name` parser (`src/parse/selection.rs`) -/

/-- Modelled from the spec: `REF_ALL_TOKEN` of `crate::cell` (absent from
`src/`): the wildcard/all token (spec §4.5). -/
def REF_ALL_TOKEN : Char := '*'

/-- Modelled from the spec: `REF_SEP_TOKEN` of `crate::cell` (absent from
`src/`): the selector separator (spec §4.5). -/
def REF_SEP_TOKEN : Char := ','

/-- Modelled from the spec: `REF_POS_SEP_TOKEN` of `crate::cell` (absent
from `src/`): the position-field separator (spec §4.5). -/
def REF_POS_SEP_TOKEN : Char := '.'

/-- Modelled from the spec: `REF_PREFIX_TOKEN` of `crate::cell` (absent
from `src/`): the index/position/group prefix (spec §4.5). -/
def REF_PREFIX_TOKEN : Char := ':'

/-- Modelled from the spec: `REF_RANGE_TOKEN` of `crate::cell` (absent
from `src/`): the range separator (spec §4.5). -/
def REF_RANGE_TOKEN : Char := '-'

/-- The `valid_char` predicate of `name`: not one of the five reserved
tokens and not whitespace. -/
def nameValidChar (c : Char) : Bool :=
  !([REF_ALL_TOKEN, REF_SEP_TOKEN, REF_POS_SEP_TOKEN, REF_PREFIX_TOKEN,
     REF_RANGE_TOKEN].contains c) && !(rustIsWhitespace c)

/-- `name`: one or more `valid_char`s; the value is the matched text
trimmed (`context.trim()` in the source), the token the untrimmed matched
text (`&text[0..(text.len() - res.rest.len())]`). -/
def nameP : Parser (List Char) := fun text =>
  match repeatC 1 none (charMatchingP nameValidChar) (text.length + 3)
      text with
  | none => none
  | some r =>
      match sourceFor r "cell ref name" with
      | .error f => some (.error f)
      | .ok res =>
          let context := text.take (text.length - res.rest.length)
          some (.ok { value := trimWs context, token := context,
                      rest := res.rest })

/-! ## Float parsing (`src/parse/primitive.rs`) and the color grammar
(`src/parse/color.rs`)

The destination float type (`f32` in the color grammar) is abstracted as a
type `F` together with its numeric-literal parser
`fromStr : List Char → Option F` (an external collaborator, spec §6). -/

/-- Modelled from the spec: `convert_value` of the `parse` result module
(absent from `src/`): delegates the matched token to the destination
type's own numeric-literal parser (spec §4.2); a conversion error becomes
a failure with the caller-supplied description. -/
def convertValue (r : ParseResult (List Char)) (expected : String)
    (fromStr : List Char → Option F) : ParseResult F :=
  match r with
  | .error f => .error f
  | .ok s =>
      match fromStr s.value with
      | some v => .ok (s.mapValue fun _ => v)
      | none =>
          .error { context := s.token, expected := expected,
                   source := some (.externalError "conversion error"),
                   rest := s.rest }

/-- `float_exp`: `[eE]`, optional sign, one or more digits. -/
def floatExpP : Parser (List Char) := fun text =>
  match (charInP ['e','E'] text).map (sourceFor · "float exponent") with
  | none => none
  | some (.error f) => some (.error f)
  | some (.ok suc) =>
      match (maybeC (charInP ['+','-']) suc.rest).map
          (fun r => withJoinPrevious r suc text) with
      | some (.ok suc1) =>
          (repeatC 1 none
              (charMatchingP fun c => (charToDigit 10 c).isSome)
              (suc1.rest.length + 3) suc1.rest).map fun r =>
            prTokenizeValue
              (withJoinPrevious (sourceFor r "float exponent digits") suc1
                text)
      | _ => none

/-- `float::<T>(float_type)`: optional sign, `inf`/`nan` literal or
mantissa and optional exponent, then conversion by `T::from_str`. -/
def floatP (fromStr : List Char → Option F) (floatType : String) :
    Parser F := fun text =>
  match maybeC (charInP ['+','-']) text with
  | some (.ok suc) =>
      match literalP ['i','n','f'] suc.rest with
      | some (.ok infSuc) =>
          some (convertValue
            (prTokenizeValue (withJoinPrevious (.ok infSuc) suc text))
            ("parse inf " ++ floatType) fromStr)
      | _ =>
          match literalP ['n','a','n'] suc.rest with
          | some (.ok nanSuc) =>
              some (convertValue
                (prTokenizeValue (withJoinPrevious (.ok nanSuc) suc text))
                ("parse inf " ++ floatType) fromStr)
          | _ =>
              match (circumfixC (maybeC (charP '.'))
                  (repeatC 0 none
                    (charMatchingP fun c => (charToDigit 10 c).isSome)
                    (suc.rest.length + 2))
                  suc.rest).map
                  (fun r => withJoinPrevious (prTokenizeValue r) suc
                    text) with
              | some (.ok suc1) =>
                  (atomicIgnoreWhitespaceC floatExpP suc1.rest).map fun r =>
                    convertValue
                      (prTokenizeValue (withJoinPrevious r suc1 text))
                      ("parse inf " ++ floatType) fromStr
              | _ => none
  | _ => none

/-- The parsed color value.  The conversions `Rgb::from`, `Color::from`
etc. are external collaborators (spec §6) and are represented as plain
injections; the functional constructors carry the parsed floats. -/
inductive ColorV (F : Type) where
  | rgbHex (n : Nat)
  | rgb (vs : List F)
  | cmyk (vs : List F)
  | hsv (vs : List F)
  | hsl (vs : List F)
  | xyz (vs : List F)
deriving Repr

/-- `rgb_hex_6`: `#` then exactly six hex digits. -/
def rgbHex6P (F : Type) : Parser (ColorV F) := fun text =>
  match prefixC (uintDigitsValueP "u32" u32Max 6 (some 6) 16) (charP '#')
      text with
  | none => none
  | some (.error f) => some (.error f)
  | some (.ok suc) => some (.ok (suc.mapValue ColorV.rgbHex))

/-- `rgb_hex_3`: `#` then exactly three hex digits, nibble-duplicated. -/
def rgbHex3P (F : Type) : Parser (ColorV F) := fun text =>
  match prefixC (uintDigitsValueP "u32" u32Max 3 (some 3) 16) (charP '#')
      text with
  | none => none
  | some (.error f) => some (.error f)
  | some (.ok suc) =>
      some (.ok (suc.mapValue fun v => ColorV.rgbHex
        ((v &&& 0x00F) ||| ((v &&& 0x00F) <<< 4) |||
         ((v &&& 0x0F0) <<< 4) ||| ((v &&& 0x0F0) <<< 8) |||
         ((v &&& 0xF00) <<< 8) ||| ((v &&& 0xF00) <<< 12))))

/-- `rgb_hex`: six digits, else three. -/
def rgbHexP (F : Type) : Parser (ColorV F) := fun text =>
  match rgbHex6P F text with
  | none => none
  | some (.ok s) => some (.ok s)
  | some (.error _) => rgbHex3P F text

/-- `functional(n)`: a parenthesized, comma-separated, whitespace-tolerant
list of exactly `n` floats. -/
def functionalP (fromStr : List Char → Option F) (n : Nat) :
    Parser (List F) := fun text =>
  bracketC
    (intersperseCollectC n (some n) (floatP fromStr "f32")
      (circumfixC (charP ',') (maybeC whitespaceP))
      (text.length + 2 * n + 4))
    (postfixC (charP '(') (maybeC whitespaceP))
    (prefixC (charP ')') (maybeC whitespaceP))
    text

/-- `rgb_functional`: case-insensitive `rgb` then `functional(3)`.  The
array construction `Rgb::from([v[0], v[1], v[2]])` is represented by
carrying the first three parsed floats. -/
def rgbFunctionalP (fromStr : List Char → Option F) :
    Parser (ColorV F) := fun text =>
  match prefixC (functionalP fromStr 3)
      (literalIgnoreAsciiCaseP ['r','g','b']) text with
  | none => none
  | some (.error f) => some (.error f)
  | some (.ok suc) =>
      some (.ok (suc.mapValue fun vs => ColorV.rgb (vs.take 3)))

/-- `hsv_functional`. -/
def hsvFunctionalP (fromStr : List Char → Option F) :
    Parser (ColorV F) := fun text =>
  match prefixC (functionalP fromStr 3)
      (literalIgnoreAsciiCaseP ['h','s','v']) text with
  | none => none
  | some (.error f) => some (.error f)
  | some (.ok suc) =>
      some (.ok (suc.mapValue fun vs => ColorV.hsv (vs.take 3)))

/-- `hsl_functional`. -/
def hslFunctionalP (fromStr : List Char → Option F) :
    Parser (ColorV F) := fun text =>
  match prefixC (functionalP fromStr 3)
      (literalIgnoreAsciiCaseP ['h','s','l']) text with
  | none => none
  | some (.error f) => some (.error f)
  | some (.ok suc) =>
      some (.ok (suc.mapValue fun vs => ColorV.hsl (vs.take 3)))

/-- `cmyk_functional`: arity 4. -/
def cmykFunctionalP (fromStr : List Char → Option F) :
    Parser (ColorV F) := fun text =>
  match prefixC (functionalP fromStr 4)
      (literalIgnoreAsciiCaseP ['c','m','y','k']) text with
  | none => none
  | some (.error f) => some (.error f)
  | some (.ok suc) =>
      some (.ok (suc.mapValue fun vs => ColorV.cmyk (vs.take 4)))

/-- `xyz_functional`. -/
def xyzFunctionalP (fromStr : List Char → Option F) :
    Parser (ColorV F) := fun text =>
  match prefixC (functionalP fromStr 3)
      (literalIgnoreAsciiCaseP ['x','y','z']) text with
  | none => none
  | some (.error f) => some (.error f)
  | some (.ok suc) =>
      some (.ok (suc.mapValue fun vs => ColorV.xyz (vs.take 3)))

/-- The conditional update of the running failure in `color`: replace it
when the new failure's context is strictly longer. -/
def colorUpdate (fail g : Failure) : Failure :=
  if fail.context.length < g.context.length then
    { fail with context := g.context, rest := g.rest,
                source := some g.toOwned }
  else fail

/-- `color`: hex, then the five functional notations, keeping (among the
failures seen after the hex attempts) the one with the longest context. -/
def colorP (fromStr : List Char → Option F) : Parser (ColorV F) :=
  fun text =>
  let fail0 : Failure :=
    { context := [], expected := "color value", source := none,
      rest := text }
  match rgbHexP F text with
  | none => none
  | some (.ok s) => some (.ok s)
  | some (.error _) =>
      match rgbFunctionalP fromStr text with
      | none => none
      | some (.ok s) => some (.ok s)
      | some (.error rgbFail) =>
          let fail1 :=
            { fail0 with context := rgbFail.context,
                         rest := rgbFail.rest,
                         source := some rgbFail.toOwned }
          match cmykFunctionalP fromStr text with
          | none => none
          | some (.ok s) => some (.ok s)
          | some (.error cmykFail) =>
              let fail2 := colorUpdate fail1 cmykFail
              match hsvFunctionalP fromStr text with
              | none => none
              | some (.ok s) => some (.ok s)
              | some (.error hsvFail) =>
                  let fail3 := colorUpdate fail2 hsvFail
                  match hslFunctionalP fromStr text with
                  | none => none
                  | some (.ok s) => some (.ok s)
                  | some (.error hslFail) =>
                      let fail4 := colorUpdate fail3 hslFail
                      match xyzFunctionalP fromStr text with
                      | none => none
                      | some (.ok s) => some (.ok s)
                      | some (.error xyzFail) =>
                          some (.error (colorUpdate fail4 xyzFail))

/-! ## Specification-side definitions

Predicates and reference functions used to state the properties proved
below. -/

/-- `FRest p`: every failure of `p` returns exactly its input as `rest`
(the §3 invariant of the spec). -/
def FRest (p : Parser V) : Prop :=
  ∀ t f, p t = some (.error f) → f.rest = t

/-- `FPre p`: every failure's `context` is a prefix of its `rest` (so
`Failure::rest_continuing` is in bounds). -/
def FPre (p : Parser V) : Prop :=
  ∀ t f, p t = some (.error f) → f.context <+: f.rest

/-- `SWf p`: every success decomposes its input as `token ++ rest`. -/
def SWf (p : Parser V) : Prop :=
  ∀ t s, p t = some (.ok s) → s.token ++ s.rest = t

/-- An input on which a parser `p` has exactly `k` consecutive matches is
described by a chain `ts` of positions: `p` succeeds at `ts i` leaving
`ts (i+1)` for `i < k`, and fails at `ts k`. -/
def ChainOk (p : Parser V) (ts : Nat → List Char) (k : Nat) : Prop :=
  ∀ i, i < k → ∃ s, p (ts i) = some (.ok s) ∧ s.rest = ts (i + 1)

/-- The parser fails at the position after the `k` matches. -/
def ChainFail (p : Parser V) (ts : Nat → List Char) (k : Nat) : Prop :=
  ∃ f, p (ts k) = some (.error f)

/-- The count reached by `repeat` when `k` matches are available. -/
abbrev highCap (high : Option Nat) (k : Nat) : Nat :=
  match high with
  | none => k
  | some h => min k h

/-- Well-formed repetition bounds: `high`, when given, is positive and
at least `low` (see C8: the code misbehaves outside this range). -/
abbrev HighOk (low : Nat) (high : Option Nat) : Prop :=
  match high with
  | none => True
  | some h => low ≤ h ∧ 1 ≤ h

/-- The numeric value of a digit string in the given radix (the reference
semantics for the accumulation loop of `uint_digits_value`). -/
def accFrom (radix : Nat) (res : Nat) (l : List Char) : Nat :=
  l.foldl (fun acc c => acc * radix + (charToDigit radix c).getD 0) res

/-- The value of a digit string, starting from zero. -/
def digitsValue (radix : Nat) (l : List Char) : Nat :=
  accFrom radix 0 l

/-- The digit-or-underscore predicate of `uint_digits_value`. -/
def digitOrUnderscore (radix : Nat) (c : Char) : Bool :=
  (charToDigit radix c).isSome || c == '_'

/-- Failure `g` reports alternative failure `f`: its context, rest and
source are taken from `f` (the expected string is the fold's own). -/
def selectsFailure (g f : Failure) : Prop :=
  g.context = f.context ∧ g.rest = f.rest ∧ g.source = some f.toOwned

/-- `g` reports the element of `fs` whose context is longest, with ties
broken in favour of the earliest element. -/
def BestIdx (fs : List Failure) (g : Failure) : Prop :=
  ∃ i, ∃ hi : i < fs.length, selectsFailure g fs[i] ∧
    (∀ j, ∀ hj : j < fs.length,
      fs[j].context.length ≤ fs[i].context.length) ∧
    (∀ j, ∀ hj : j < fs.length, j < i →
      fs[j].context.length < fs[i].context.length)

/-! ## List helpers -/

theorem takeApp (l1 l2 : List α) (n : Nat) :
    (l1 ++ l2).take (l1.length + n) = l1 ++ l2.take n := by
  induction l1 with
  | nil => simp
  | cons a l ih => simp [List.take, Nat.succ_add, ih]

theorem dropWhile_eq_self_of_all {p : α → Bool} {l : List α}
    (h : ∀ c ∈ l, p c = false) : l.dropWhile p = l := by
  cases l with
  | nil => rfl
  | cons a l => simp [List.dropWhile, h a (by simp)]

theorem trimWs_eq_self {l : List Char}
    (h : ∀ c ∈ l, rustIsWhitespace c = false) : trimWs l = l := by
  unfold trimWs
  rw [dropWhile_eq_self_of_all h, dropWhile_eq_self_of_all, List.reverse_reverse]
  intro c hc
  exact h c (by simpa using hc)

/-! ## Parser well-formedness invariants

`FRest p`: every failure of `p` returns exactly its input as `rest`
(the §3 invariant of the spec).  `FPre p`: every failure's `context` is a
prefix of its `rest` (so `Failure::rest_continuing` is in bounds).
`SWf p`: every success decomposes its input as `token ++ rest`. -/

/-! ### Primitive parsers -/

theorem charP_frest (c : Char) : FRest (charP c) := by
  intro t f h
  unfold charP at h
  cases t <;> simp only [Option.some.injEq] at h
  · simp only [Except.error.injEq] at h; subst h; rfl
  · split at h
    · exact absurd h (by simp)
    · injection h with h; subst h; rfl

theorem charP_fpre (c : Char) : FPre (charP c) := by
  intro t f h
  unfold charP at h
  cases t <;> simp only [Option.some.injEq] at h
  · simp only [Except.error.injEq] at h; subst h
    exact List.nil_prefix
  · split at h
    · exact absurd h (by simp)
    · injection h with h; subst h; exact List.nil_prefix

theorem charP_swf (c : Char) : SWf (charP c) := by
  intro t s h
  unfold charP at h
  cases t <;> simp only [Option.some.injEq] at h
  · exact absurd h (by simp)
  · rename_i a ts
    split at h
    · rename_i hc
      injection h with h; subst h; simp [hc]
    · exact absurd h (by simp)

theorem charInGo_frest (opts text rem : List Char) (f : Failure)
    (h : charInGo opts text rem = some (.error f)) : f.rest = text := by
  induction rem with
  | nil =>
      simp only [charInGo, Option.some.injEq, Except.error.injEq] at h
      subst h; rfl
  | cons c cs ih =>
      rw [charInGo] at h
      rcases hc : charP c text with _ | r
      · rw [hc] at h; exact ih h
      · rcases r with fl | s <;> rw [hc] at h
        · exact ih h
        · simp at h

theorem charInP_frest (opts : List Char) : FRest (charInP opts) :=
  fun t f h => charInGo_frest opts t opts f h

theorem charInGo_fpre (opts text rem : List Char) (f : Failure)
    (h : charInGo opts text rem = some (.error f)) :
    f.context <+: f.rest := by
  induction rem with
  | nil =>
      simp only [charInGo, Option.some.injEq, Except.error.injEq] at h
      subst h; exact List.nil_prefix
  | cons c cs ih =>
      rw [charInGo] at h
      rcases hc : charP c text with _ | r
      · rw [hc] at h; exact ih h
      · rcases r with fl | s <;> rw [hc] at h
        · exact ih h
        · simp at h

theorem charInP_fpre (opts : List Char) : FPre (charInP opts) :=
  fun t f h => charInGo_fpre opts t opts f h

theorem charInGo_swf (opts text rem : List Char) (s : Success Char)
    (h : charInGo opts text rem = some (.ok s)) :
    s.token ++ s.rest = text := by
  induction rem with
  | nil => simp [charInGo] at h
  | cons c cs ih =>
      rw [charInGo] at h
      rcases hc : charP c text with _ | r
      · rw [hc] at h; exact ih h
      · rcases r with fl | s' <;> rw [hc] at h
        · exact ih h
        · simp only [Option.some.injEq, Except.ok.injEq] at h
          subst h
          exact charP_swf c text s' hc

theorem charInP_swf (opts : List Char) : SWf (charInP opts) :=
  fun t s h => charInGo_swf opts t opts s h

theorem charMatchingP_frest (pred : Char → Bool) :
    FRest (charMatchingP pred) := by
  intro t f h
  unfold charMatchingP at h
  cases t <;> simp only [Option.some.injEq] at h
  · simp only [Except.error.injEq] at h; subst h; rfl
  · split at h
    · exact absurd h (by simp)
    · injection h with h; subst h; rfl

theorem charMatchingP_fpre (pred : Char → Bool) :
    FPre (charMatchingP pred) := by
  intro t f h
  unfold charMatchingP at h
  cases t <;> simp only [Option.some.injEq] at h
  · simp only [Except.error.injEq] at h; subst h
    exact List.nil_prefix
  · split at h
    · exact absurd h (by simp)
    · injection h with h; subst h; exact List.nil_prefix

theorem charMatchingP_swf (pred : Char → Bool) :
    SWf (charMatchingP pred) := by
  intro t s h
  unfold charMatchingP at h
  cases t <;> simp only [Option.some.injEq] at h
  · exact absurd h (by simp)
  · split at h
    · injection h with h; subst h; rfl
    · exact absurd h (by simp)

theorem sourceFor_error (r : ParseResult V) (e : String) (f : Failure)
    (h : sourceFor r e = .error f) :
    ∃ f0, r = .error f0 ∧ f.rest = f0.rest ∧ f.context = f0.context := by
  rcases r with f0 | s
  · refine ⟨f0, rfl, ?_, ?_⟩ <;>
      simp only [sourceFor, Except.error.injEq] at h <;> subst h <;> rfl
  · simp [sourceFor] at h

theorem sourceFor_ok (r : ParseResult V) (e : String) (s : Success V)
    (h : sourceFor r e = .ok s) : r = .ok s := by
  rcases r with f0 | s'
  · simp [sourceFor] at h
  · simp only [sourceFor, Except.ok.injEq] at h; rw [h]

theorem charWhitespaceP_frest : FRest charWhitespaceP := by
  intro t f h
  rcases hc : charMatchingP rustIsWhitespace t with _ | r
  · simp [charWhitespaceP, hc] at h
  · unfold charWhitespaceP at h
    rw [hc] at h
    simp only [Option.map_some', Option.some.injEq] at h
    obtain ⟨f0, hr, hrest, _⟩ := sourceFor_error r _ f h
    subst hr
    exact hrest.trans (charMatchingP_frest _ t f0 hc)

theorem charWhitespaceP_fpre : FPre charWhitespaceP := by
  intro t f h
  rcases hc : charMatchingP rustIsWhitespace t with _ | r
  · simp [charWhitespaceP, hc] at h
  · unfold charWhitespaceP at h
    rw [hc] at h
    simp only [Option.map_some', Option.some.injEq] at h
    obtain ⟨f0, hr, hrest, hctx⟩ := sourceFor_error r _ f h
    subst hr
    rw [hrest, hctx]
    exact charMatchingP_fpre _ t f0 hc

theorem charWhitespaceP_swf : SWf charWhitespaceP := by
  intro t s h
  rcases hc : charMatchingP rustIsWhitespace t with _ | r
  · simp [charWhitespaceP, hc] at h
  · unfold charWhitespaceP at h
    rw [hc] at h
    simp only [Option.map_some', Option.some.injEq] at h
    exact charMatchingP_swf _ t s (by rw [hc, sourceFor_ok r _ s h])

theorem literalP_frest (l : List Char) : FRest (literalP l) := by
  intro t f h
  simp only [literalP, Option.some.injEq] at h
  split at h
  · exact absurd h (by simp)
  · injection h with h; subst h; rfl

theorem literalP_fpre (l : List Char) : FPre (literalP l) := by
  intro t f h
  simp only [literalP, Option.some.injEq] at h
  split at h
  · exact absurd h (by simp)
  · injection h with h; subst h; exact List.nil_prefix

theorem literalP_swf (l : List Char) : SWf (literalP l) := by
  intro t s h
  simp only [literalP, Option.some.injEq] at h
  split at h
  · injection h with h; subst h; simp
  · exact absurd h (by simp)

theorem litIcaseGo_cases (expect text : List Char) :
    ∀ es ts idx, (∀ s, litIcaseGo expect text es ts idx = .ok s →
        s.token ++ s.rest = text) ∧
      (∀ f, litIcaseGo expect text es ts idx = .error f →
        f.rest = text ∧ f.context <+: text) := by
  intro es
  induction es with
  | nil =>
      intro ts idx
      constructor
      · intro s h
        simp only [litIcaseGo, Except.ok.injEq] at h
        subst h; simp
      · intro f h; simp [litIcaseGo] at h
  | cons e es ih =>
      intro ts idx
      cases ts with
      | nil =>
          constructor
          · intro s h; simp [litIcaseGo] at h
          · intro f h
            simp only [litIcaseGo, Except.error.injEq] at h
            subst h
            exact ⟨rfl, List.take_prefix _ _⟩
      | cons a ts' =>
          constructor
          · intro s h
            rw [litIcaseGo] at h
            split at h
            · exact (ih ts' (idx + 1)).1 s h
            · simp at h
          · intro f h
            rw [litIcaseGo] at h
            split at h
            · exact (ih ts' (idx + 1)).2 f h
            · simp only [Except.error.injEq] at h
              subst h
              exact ⟨rfl, List.take_prefix _ _⟩

theorem literalIgnoreAsciiCaseP_frest (l : List Char) :
    FRest (literalIgnoreAsciiCaseP l) := by
  intro t f h
  simp only [literalIgnoreAsciiCaseP, Option.some.injEq] at h
  exact ((litIcaseGo_cases l t l t 0).2 f h).1

theorem literalIgnoreAsciiCaseP_fpre (l : List Char) :
    FPre (literalIgnoreAsciiCaseP l) := by
  intro t f h
  simp only [literalIgnoreAsciiCaseP, Option.some.injEq] at h
  obtain ⟨h1, h2⟩ := (litIcaseGo_cases l t l t 0).2 f h
  rw [h1]; exact h2

theorem literalIgnoreAsciiCaseP_swf (l : List Char) :
    SWf (literalIgnoreAsciiCaseP l) := by
  intro t s h
  simp only [literalIgnoreAsciiCaseP, Option.some.injEq] at h
  exact (litIcaseGo_cases l t l t 0).1 s h

theorem prefixRadixTokenP_frest : FRest prefixRadixTokenP := by
  intro t f h
  simp only [prefixRadixTokenP, Option.some.injEq] at h
  split at h
  · exact absurd h (by simp)
  · injection h with h; subst h; rfl

theorem prefixRadixTokenP_fpre : FPre prefixRadixTokenP := by
  intro t f h
  simp only [prefixRadixTokenP, Option.some.injEq] at h
  split at h
  · exact absurd h (by simp)
  · injection h with h; subst h; exact List.nil_prefix

theorem prefixRadixTokenP_swf : SWf prefixRadixTokenP := by
  intro t s h
  simp only [prefixRadixTokenP, Option.some.injEq] at h
  split at h
  · injection h with h; subst h; simp
  · exact absurd h (by simp)

theorem nullP_swf : SWf nullP := by
  intro t s h
  simp only [nullP, Option.some.injEq, Except.ok.injEq] at h
  subst h; rfl

theorem nullP_frest : FRest nullP := by
  intro t f h
  simp [nullP] at h

theorem nullP_fpre : FPre nullP := by
  intro t f h
  simp [nullP] at h

/-! ### Result-operation facts -/

theorem joinFailure_rest (s : Success V) (f : Failure) (text : List Char) :
    (s.joinFailure f text).rest = text := rfl

theorem joinFailure_fpre (s : Success V) (f : Failure) (text : List Char) :
    (s.joinFailure f text).context <+: (s.joinFailure f text).rest :=
  List.take_prefix _ _

theorem withJoinPrevious_error {r : ParseResult V} {prev : Success U}
    {text : List Char} {f : Failure}
    (h : withJoinPrevious r prev text = .error f) :
    ∃ f0, r = .error f0 ∧ f = prev.joinFailure f0 text := by
  rcases r with f0 | s <;> simp only [withJoinPrevious] at h
  · exact ⟨f0, rfl, by injection h with h; rw [← h]⟩
  · exact absurd h (by simp)

theorem withJoinPrevious_ok {r : ParseResult V} {prev : Success U}
    {text : List Char} {s : Success V}
    (h : withJoinPrevious r prev text = .ok s) :
    ∃ s0, r = .ok s0 ∧ s = prev.joinWith s0 text (fun _ v => v) := by
  rcases r with f0 | s0 <;> simp only [withJoinPrevious] at h
  · exact absurd h (by simp)
  · exact ⟨s0, rfl, by injection h with h; rw [← h]⟩

theorem joinWith_swf {a : Success A} {b : Success B} {t : List Char}
    (g : A → B → C) (ha : a.token ++ a.rest = t)
    (hb : b.token ++ b.rest = a.rest) :
    (a.joinWith b t g).token ++ (a.joinWith b t g).rest = t := by
  have ht : t = (a.token ++ b.token) ++ b.rest := by
    rw [← ha, ← hb, List.append_assoc]
  have htok : (a.joinWith b t g).token = a.token ++ b.token := by
    show t.take (a.token.length + b.token.length) = _
    rw [ht, ← List.length_append, List.take_left]
  have hrest : (a.joinWith b t g).rest = b.rest := rfl
  rw [htok, hrest, ← ht]

theorem mapValue_token (s : Success V) (g : V → U) :
    (s.mapValue g).token = s.token := rfl

theorem mapValue_rest (s : Success V) (g : V → U) :
    (s.mapValue g).rest = s.rest := rfl

theorem prMapValue_error {r : ParseResult V} {g : V → U} {f : Failure} :
    prMapValue r g = .error f ↔ r = .error f := by
  rcases r with f0 | s <;> simp [prMapValue]

theorem prMapValue_ok {r : ParseResult V} {g : V → U} {s : Success U} :
    prMapValue r g = .ok s ↔ ∃ s0, r = .ok s0 ∧ s = s0.mapValue g := by
  rcases r with f0 | s0 <;> simp [prMapValue]
  exact ⟨fun h => by rw [← h], fun h => by rw [h]⟩

theorem map_discard_error {o : Option (ParseResult V)} {f : Failure} :
    o.map prDiscardValue = some (.error f) ↔ o = some (.error f) := by
  rcases o with _ | r
  · simp
  · rcases r with f0 | s <;> simp [prDiscardValue]

theorem map_discard_ok {o : Option (ParseResult V)} {s : Success Unit} :
    o.map prDiscardValue = some (.ok s) ↔
      ∃ s0, o = some (.ok s0) ∧ s = s0.discardValue := by
  rcases o with _ | r
  · simp
  · rcases r with f0 | s0 <;> simp [prDiscardValue]
    exact ⟨fun h => by rw [← h], fun h => by rw [h]⟩

/-! ### Combinator preservation -/

theorem maybeC_no_error (p : Parser V) :
    ∀ t f, maybeC p t ≠ some (.error f) := by
  intro t f h
  rcases hp : p t with _ | r <;> rw [maybeC, hp] at h
  · simp at h
  · rcases r with f0 | s <;> simp at h

theorem maybeC_frest (p : Parser V) : FRest (maybeC p) :=
  fun t f h => absurd h (maybeC_no_error p t f)

theorem maybeC_fpre (p : Parser V) : FPre (maybeC p) :=
  fun t f h => absurd h (maybeC_no_error p t f)

theorem maybeC_swf {p : Parser V} (hp : SWf p) : SWf (maybeC p) := by
  intro t s h
  rcases hp' : p t with _ | r <;> rw [maybeC, hp'] at h
  · simp at h
  · rcases r with f0 | s0 <;>
      simp only [Option.map_some', Option.some.injEq, Except.ok.injEq] at h
    · rw [← h]; rfl
    · rw [← h]
      exact hp t s0 hp'

theorem atomicC_frest {p : Parser V} (hp : FRest p) : FRest (atomicC p) := by
  intro t f h
  rcases hp' : p t with _ | r <;> rw [atomicC, hp'] at h
  · simp at h
  · rcases r with f0 | s0 <;>
      simp only [Option.map_some', Option.some.injEq] at h
    · split at h
      · exact absurd h (by simp)
      · injection h with h; rw [← h]; exact hp t f0 hp'
    · exact absurd h (by simp)

theorem atomicC_fpre {p : Parser V} (hp : FPre p) : FPre (atomicC p) := by
  intro t f h
  rcases hp' : p t with _ | r <;> rw [atomicC, hp'] at h
  · simp at h
  · rcases r with f0 | s0 <;>
      simp only [Option.map_some', Option.some.injEq] at h
    · split at h
      · exact absurd h (by simp)
      · injection h with h; rw [← h]; exact hp t f0 hp'
    · exact absurd h (by simp)

theorem atomicC_swf {p : Parser V} (hp : SWf p) : SWf (atomicC p) := by
  intro t s h
  rcases hp' : p t with _ | r <;> rw [atomicC, hp'] at h
  · simp at h
  · rcases r with f0 | s0 <;>
      simp only [Option.map_some', Option.some.injEq] at h
    · split at h
      · injection h with h; rw [← h]; rfl
      · exact absurd h (by simp)
    · injection h with h; rw [← h]
      exact hp t s0 hp'

theorem atomicIgnoreWhitespaceC_frest {p : Parser V} (hp : FRest p) :
    FRest (atomicIgnoreWhitespaceC p) := by
  intro t f h
  rcases hp' : p t with _ | r <;> rw [atomicIgnoreWhitespaceC, hp'] at h
  · simp at h
  · rcases r with f0 | s0 <;>
      simp only [Option.map_some', Option.some.injEq] at h
    · split at h
      · exact absurd h (by simp)
      · injection h with h; rw [← h]; exact hp t f0 hp'
    · exact absurd h (by simp)

theorem atomicIgnoreWhitespaceC_fpre {p : Parser V} (hp : FPre p) :
    FPre (atomicIgnoreWhitespaceC p) := by
  intro t f h
  rcases hp' : p t with _ | r <;> rw [atomicIgnoreWhitespaceC, hp'] at h
  · simp at h
  · rcases r with f0 | s0 <;>
      simp only [Option.map_some', Option.some.injEq] at h
    · split at h
      · exact absurd h (by simp)
      · injection h with h; rw [← h]; exact hp t f0 hp'
    · exact absurd h (by simp)

theorem atomicIgnoreWhitespaceC_swf {p : Parser V} (hp : SWf p)
    (hf : FRest p) (hpre : FPre p) :
    SWf (atomicIgnoreWhitespaceC p) := by
  intro t s h
  rcases hp' : p t with _ | r <;> rw [atomicIgnoreWhitespaceC, hp'] at h
  · simp at h
  · rcases r with f0 | s0 <;>
      simp only [Option.map_some', Option.some.injEq] at h
    · split at h
      · injection h with h
        rw [← h]
        show f0.context ++ f0.rest.drop f0.context.length = t
        obtain ⟨l, hl⟩ := hpre t f0 hp'
        rw [← hl, List.drop_left, hl]
        exact hf t f0 hp'
      · exact absurd h (by simp)
    · injection h with h; rw [← h]
      exact hp t s0 hp'

theorem prefixC_frest {p : Parser V} {pre : Parser U} (hpre : FRest pre) :
    FRest (prefixC p pre) := by
  intro t f h
  rw [prefixC] at h
  rcases hq : pre t with _ | r
  · simp only [hq] at h
    exact Option.noConfusion h
  rcases r with f0 | s0 <;> simp only [hq, Success.takeValue, Option.some.injEq] at h
  · injection h with h; rw [← h]
    exact hpre t f0 hq
  · rcases hp' : p s0.rest with _ | r2
    · simp only [hp', Option.map_none'] at h
      exact Option.noConfusion h
    simp only [hp', Option.map_some', Option.some.injEq] at h
    obtain ⟨f1, _, hf⟩ := withJoinPrevious_error h
    rw [hf]
    rfl

theorem prefixC_fpre {p : Parser V} {pre : Parser U} (hpre : FPre pre) :
    FPre (prefixC p pre) := by
  intro t f h
  rw [prefixC] at h
  rcases hq : pre t with _ | r
  · simp only [hq] at h
    exact Option.noConfusion h
  rcases r with f0 | s0 <;> simp only [hq, Success.takeValue, Option.some.injEq] at h
  · injection h with h; rw [← h]
    exact hpre t f0 hq
  · rcases hp' : p s0.rest with _ | r2
    · simp only [hp', Option.map_none'] at h
      exact Option.noConfusion h
    simp only [hp', Option.map_some', Option.some.injEq] at h
    obtain ⟨f1, _, hf⟩ := withJoinPrevious_error h
    rw [hf]
    exact joinFailure_fpre _ _ _

theorem prefixC_swf {p : Parser V} {pre : Parser U} (hp : SWf p)
    (hpre : SWf pre) : SWf (prefixC p pre) := by
  intro t s h
  rw [prefixC] at h
  rcases hq : pre t with _ | r
  · simp only [hq] at h
    exact Option.noConfusion h
  rcases r with f0 | s0 <;> simp only [hq, Success.takeValue, Option.some.injEq] at h
  · exact absurd h (by simp)
  · rcases hp' : p s0.rest with _ | r2
    · simp only [hp', Option.map_none'] at h
      exact Option.noConfusion h
    simp only [hp', Option.map_some', Option.some.injEq] at h
    obtain ⟨s1, hr2, hs⟩ := withJoinPrevious_ok h
    subst hr2
    rw [hs]
    exact joinWith_swf _ (hpre t s0 hq) (hp s0.rest s1 hp')

theorem prMapValue_wjp_error {r : ParseResult V} {prev : Success U}
    {text : List Char} {g : V → W} {f : Failure}
    (h : prMapValue (withJoinPrevious r prev text) g = .error f) :
    ∃ f0, r = .error f0 ∧ f = prev.joinFailure f0 text := by
  rw [prMapValue_error] at h
  exact withJoinPrevious_error h

theorem prMapValue_wjp_ok {r : ParseResult V} {prev : Success U}
    {text : List Char} {g : V → W} {s : Success W}
    (h : prMapValue (withJoinPrevious r prev text) g = .ok s) :
    ∃ s0, r = .ok s0 ∧
      s = (prev.joinWith s0 text (fun _ v => v)).mapValue g := by
  rw [prMapValue_ok] at h
  obtain ⟨s1, h1, h2⟩ := h
  obtain ⟨s0, h3, h4⟩ := withJoinPrevious_ok h1
  exact ⟨s0, h3, by rw [h2, h4]⟩

theorem pairC_frest {pf : Parser V} {ps : Parser U} (hf : FRest pf) :
    FRest (pairC pf ps) := by
  intro t f h
  rw [pairC] at h
  rcases hq : pf t with _ | r
  · simp only [hq] at h
    exact Option.noConfusion h
  rcases r with f0 | s0 <;> simp only [hq, Success.takeValue, Option.some.injEq] at h
  · injection h with h; rw [← h]
    exact hf t f0 hq
  · rcases hp' : ps s0.discardValue.rest with _ | r2
    · simp only [hp', Option.map_none'] at h
      exact Option.noConfusion h
    simp only [hp', Option.map_some', Option.some.injEq] at h
    obtain ⟨f1, _, hff⟩ := prMapValue_wjp_error h
    rw [hff]
    rfl

theorem pairC_fpre {pf : Parser V} {ps : Parser U} (hf : FPre pf) :
    FPre (pairC pf ps) := by
  intro t f h
  rw [pairC] at h
  rcases hq : pf t with _ | r
  · simp only [hq] at h
    exact Option.noConfusion h
  rcases r with f0 | s0 <;> simp only [hq, Success.takeValue, Option.some.injEq] at h
  · injection h with h; rw [← h]
    exact hf t f0 hq
  · rcases hp' : ps s0.discardValue.rest with _ | r2
    · simp only [hp', Option.map_none'] at h
      exact Option.noConfusion h
    simp only [hp', Option.map_some', Option.some.injEq] at h
    obtain ⟨f1, _, hff⟩ := prMapValue_wjp_error h
    rw [hff]
    exact joinFailure_fpre _ _ _

theorem pairC_swf {pf : Parser V} {ps : Parser U} (h1 : SWf pf)
    (h2 : SWf ps) : SWf (pairC pf ps) := by
  intro t s h
  rw [pairC] at h
  rcases hq : pf t with _ | r
  · simp only [hq] at h
    exact Option.noConfusion h
  rcases r with f0 | s0 <;> simp only [hq, Success.takeValue, Option.some.injEq] at h
  · exact absurd h (by simp)
  · rcases hp' : ps s0.discardValue.rest with _ | r2
    · simp only [hp', Option.map_none'] at h
      exact Option.noConfusion h
    simp only [hp', Option.map_some', Option.some.injEq] at h
    obtain ⟨s1, hr2, hs⟩ := prMapValue_wjp_ok h
    subst hr2
    rw [hs, mapValue_token, mapValue_rest]
    exact joinWith_swf _ (h1 t s0 hq) (h2 _ s1 hp')

theorem postfixC_frest {p : Parser V} {post : Parser U} (hf : FRest p) :
    FRest (postfixC p post) := by
  intro t f h
  rw [postfixC] at h
  rcases hq : p t with _ | r
  · simp only [hq] at h
    exact Option.noConfusion h
  rcases r with f0 | s0 <;> simp only [hq, Success.takeValue, Option.some.injEq] at h
  · injection h with h; rw [← h]
    exact hf t f0 hq
  · rcases hp' : post s0.discardValue.rest with _ | r2
    · simp only [hp', Option.map_none'] at h
      exact Option.noConfusion h
    simp only [hp', Option.map_some', Option.some.injEq] at h
    obtain ⟨f1, _, hff⟩ := prMapValue_wjp_error h
    rw [hff]
    rfl

theorem postfixC_fpre {p : Parser V} {post : Parser U} (hf : FPre p) :
    FPre (postfixC p post) := by
  intro t f h
  rw [postfixC] at h
  rcases hq : p t with _ | r
  · simp only [hq] at h
    exact Option.noConfusion h
  rcases r with f0 | s0 <;> simp only [hq, Success.takeValue, Option.some.injEq] at h
  · injection h with h; rw [← h]
    exact hf t f0 hq
  · rcases hp' : post s0.discardValue.rest with _ | r2
    · simp only [hp', Option.map_none'] at h
      exact Option.noConfusion h
    simp only [hp', Option.map_some', Option.some.injEq] at h
    obtain ⟨f1, _, hff⟩ := prMapValue_wjp_error h
    rw [hff]
    exact joinFailure_fpre _ _ _

theorem postfixC_swf {p : Parser V} {post : Parser U} (h1 : SWf p)
    (h2 : SWf post) : SWf (postfixC p post) := by
  intro t s h
  rw [postfixC] at h
  rcases hq : p t with _ | r
  · simp only [hq] at h
    exact Option.noConfusion h
  rcases r with f0 | s0 <;> simp only [hq, Success.takeValue, Option.some.injEq] at h
  · exact absurd h (by simp)
  · rcases hp' : post s0.discardValue.rest with _ | r2
    · simp only [hp', Option.map_none'] at h
      exact Option.noConfusion h
    simp only [hp', Option.map_some', Option.some.injEq] at h
    obtain ⟨s1, hr2, hs⟩ := prMapValue_wjp_ok h
    subst hr2
    rw [hs, mapValue_token, mapValue_rest]
    exact joinWith_swf _ (h1 t s0 hq) (h2 _ s1 hp')

theorem circumfixC_frest {p : Parser V} {circ : Parser U}
    (hc : FRest circ) : FRest (circumfixC p circ) := by
  intro t f h
  rw [circumfixC] at h
  rcases hq : circ t with _ | r
  · simp only [hq] at h
    exact Option.noConfusion h
  rcases r with f0 | s0 <;> simp only [hq, Success.takeValue, Option.some.injEq] at h
  · injection h with h; rw [← h]
    exact hc t f0 hq
  · rcases hp' : p s0.rest with _ | r2
    · simp only [hp', Option.map_none'] at h
      exact Option.noConfusion h
    rcases r2 with f1 | s1 <;>
      simp only [hp', Option.map_some', withJoinPrevious,
        Success.takeValue, Option.some.injEq] at h
    · injection h with h; rw [← h]
      rfl
    · rcases hq2 : circ (s0.joinWith s1 t fun _ v => v).discardValue.rest
          with _ | r3
      · simp only [hq2, Option.map_none'] at h
        exact Option.noConfusion h
      simp only [hq2, Option.map_some', Option.some.injEq] at h
      obtain ⟨f2, _, hff⟩ := prMapValue_wjp_error h
      rw [hff]
      rfl

theorem circumfixC_fpre {p : Parser V} {circ : Parser U}
    (hc : FPre circ) : FPre (circumfixC p circ) := by
  intro t f h
  rw [circumfixC] at h
  rcases hq : circ t with _ | r
  · simp only [hq] at h
    exact Option.noConfusion h
  rcases r with f0 | s0 <;> simp only [hq, Success.takeValue, Option.some.injEq] at h
  · injection h with h; rw [← h]
    exact hc t f0 hq
  · rcases hp' : p s0.rest with _ | r2
    · simp only [hp', Option.map_none'] at h
      exact Option.noConfusion h
    rcases r2 with f1 | s1 <;>
      simp only [hp', Option.map_some', withJoinPrevious,
        Success.takeValue, Option.some.injEq] at h
    · injection h with h; rw [← h]
      exact joinFailure_fpre _ _ _
    · rcases hq2 : circ (s0.joinWith s1 t fun _ v => v).discardValue.rest
          with _ | r3
      · simp only [hq2, Option.map_none'] at h
        exact Option.noConfusion h
      simp only [hq2, Option.map_some', Option.some.injEq] at h
      obtain ⟨f2, _, hff⟩ := prMapValue_wjp_error h
      rw [hff]
      exact joinFailure_fpre _ _ _

theorem circumfixC_swf {p : Parser V} {circ : Parser U} (h1 : SWf p)
    (h2 : SWf circ) : SWf (circumfixC p circ) := by
  intro t s h
  rw [circumfixC] at h
  rcases hq : circ t with _ | r
  · simp only [hq] at h
    exact Option.noConfusion h
  rcases r with f0 | s0 <;> simp only [hq, Success.takeValue, Option.some.injEq] at h
  · exact absurd h (by simp)
  · rcases hp' : p s0.rest with _ | r2
    · simp only [hp', Option.map_none'] at h
      exact Option.noConfusion h
    rcases r2 with f1 | s1 <;>
      simp only [hp', Option.map_some', withJoinPrevious,
        Success.takeValue, Option.some.injEq] at h
    · exact absurd h (by simp)
    · rcases hq2 : circ (s0.joinWith s1 t fun _ v => v).discardValue.rest
          with _ | r3
      · simp only [hq2, Option.map_none'] at h
        exact Option.noConfusion h
      simp only [hq2, Option.map_some', Option.some.injEq] at h
      obtain ⟨s2, hr3, hs⟩ := prMapValue_wjp_ok h
      subst hr3
      rw [hs, mapValue_token, mapValue_rest]
      have hmid : (s0.joinWith s1 t fun _ v => v).token ++
          (s0.joinWith s1 t fun _ v => v).rest = t :=
        joinWith_swf _ (h2 t s0 hq) (h1 s0.rest s1 hp')
      exact joinWith_swf _ hmid (h2 _ s2 hq2)

theorem bracketC_frest {p : Parser V} {pre : Parser U} {post : Parser T}
    (hc : FRest pre) : FRest (bracketC p pre post) := by
  intro t f h
  rw [bracketC] at h
  rcases hq : pre t with _ | r
  · simp only [hq] at h
    exact Option.noConfusion h
  rcases r with f0 | s0 <;> simp only [hq, Success.takeValue, Option.some.injEq] at h
  · injection h with h; rw [← h]
    exact hc t f0 hq
  · rcases hp' : p s0.rest with _ | r2
    · simp only [hp', Option.map_none'] at h
      exact Option.noConfusion h
    rcases r2 with f1 | s1 <;>
      simp only [hp', Option.map_some', withJoinPrevious,
        Success.takeValue, Option.some.injEq] at h
    · injection h with h; rw [← h]
      rfl
    · rcases hq2 : post (s0.joinWith s1 t fun _ v => v).discardValue.rest
          with _ | r3
      · simp only [hq2, Option.map_none'] at h
        exact Option.noConfusion h
      simp only [hq2, Option.map_some', Option.some.injEq] at h
      obtain ⟨f2, _, hff⟩ := prMapValue_wjp_error h
      rw [hff]
      rfl

theorem bracketC_fpre {p : Parser V} {pre : Parser U} {post : Parser T}
    (hc : FPre pre) : FPre (bracketC p pre post) := by
  intro t f h
  rw [bracketC] at h
  rcases hq : pre t with _ | r
  · simp only [hq] at h
    exact Option.noConfusion h
  rcases r with f0 | s0 <;> simp only [hq, Success.takeValue, Option.some.injEq] at h
  · injection h with h; rw [← h]
    exact hc t f0 hq
  · rcases hp' : p s0.rest with _ | r2
    · simp only [hp', Option.map_none'] at h
      exact Option.noConfusion h
    rcases r2 with f1 | s1 <;>
      simp only [hp', Option.map_some', withJoinPrevious,
        Success.takeValue, Option.some.injEq] at h
    · injection h with h; rw [← h]
      exact joinFailure_fpre _ _ _
    · rcases hq2 : post (s0.joinWith s1 t fun _ v => v).discardValue.rest
          with _ | r3
      · simp only [hq2, Option.map_none'] at h
        exact Option.noConfusion h
      simp only [hq2, Option.map_some', Option.some.injEq] at h
      obtain ⟨f2, _, hff⟩ := prMapValue_wjp_error h
      rw [hff]
      exact joinFailure_fpre _ _ _

theorem bracketC_swf {p : Parser V} {pre : Parser U} {post : Parser T}
    (h1 : SWf p) (h2 : SWf pre) (h3 : SWf post) :
    SWf (bracketC p pre post) := by
  intro t s h
  rw [bracketC] at h
  rcases hq : pre t with _ | r
  · simp only [hq] at h
    exact Option.noConfusion h
  rcases r with f0 | s0 <;> simp only [hq, Success.takeValue, Option.some.injEq] at h
  · exact absurd h (by simp)
  · rcases hp' : p s0.rest with _ | r2
    · simp only [hp', Option.map_none'] at h
      exact Option.noConfusion h
    rcases r2 with f1 | s1 <;>
      simp only [hp', Option.map_some', withJoinPrevious,
        Success.takeValue, Option.some.injEq] at h
    · exact absurd h (by simp)
    · rcases hq2 : post (s0.joinWith s1 t fun _ v => v).discardValue.rest
          with _ | r3
      · simp only [hq2, Option.map_none'] at h
        exact Option.noConfusion h
      simp only [hq2, Option.map_some', Option.some.injEq] at h
      obtain ⟨s2, hr3, hs⟩ := prMapValue_wjp_ok h
      subst hr3
      rw [hs, mapValue_token, mapValue_rest]
      have hmid : (s0.joinWith s1 t fun _ v => v).token ++
          (s0.joinWith s1 t fun _ v => v).rest = t :=
        joinWith_swf _ (h2 t s0 hq) (h1 s0.rest s1 hp')
      exact joinWith_swf _ hmid (h3 _ s2 hq2)

theorem anyLitGo_frest (pf : List Char → Parser G) (e : String)
    (text : List Char) (m : List (List Char × V)) (f : Failure)
    (h : anyLitGo pf e text m = some (.error f)) : f.rest = text := by
  induction m with
  | nil =>
      simp only [anyLitGo, Option.some.injEq] at h
      injection h with h; rw [← h]
  | cons a m ih =>
      rw [anyLitGo] at h
      rcases hq : pf a.1 text with _ | r
      · rcases a with ⟨pat, v⟩
        rw [hq] at h
        exact Option.noConfusion h
      · rcases r with f0 | s0 <;> rcases a with ⟨pat, v⟩ <;> rw [hq] at h
        · exact ih h
        · simp at h

theorem anyLiteralMapC_frest (pf : List Char → Parser G) (e : String)
    (m : List (List Char × V)) : FRest (anyLiteralMapC pf e m) :=
  fun t f h => anyLitGo_frest pf e t m f h

theorem anyLitGo_fpre (pf : List Char → Parser G) (e : String)
    (text : List Char) (m : List (List Char × V)) (f : Failure)
    (h : anyLitGo pf e text m = some (.error f)) :
    f.context <+: f.rest := by
  induction m with
  | nil =>
      simp only [anyLitGo, Option.some.injEq] at h
      injection h with h; rw [← h]
      exact List.nil_prefix
  | cons a m ih =>
      rw [anyLitGo] at h
      rcases hq : pf a.1 text with _ | r
      · rcases a with ⟨pat, v⟩
        rw [hq] at h
        exact Option.noConfusion h
      · rcases r with f0 | s0 <;> rcases a with ⟨pat, v⟩ <;> rw [hq] at h
        · exact ih h
        · simp at h

theorem anyLiteralMapC_fpre (pf : List Char → Parser G) (e : String)
    (m : List (List Char × V)) : FPre (anyLiteralMapC pf e m) :=
  fun t f h => anyLitGo_fpre pf e t m f h

theorem anyLitGo_swf (pf : List Char → Parser G)
    (hpf : ∀ pat, SWf (pf pat)) (e : String) (text : List Char)
    (m : List (List Char × V)) (s : Success V)
    (h : anyLitGo pf e text m = some (.ok s)) :
    s.token ++ s.rest = text := by
  induction m with
  | nil => simp [anyLitGo] at h
  | cons a m ih =>
      rw [anyLitGo] at h
      rcases hq : pf a.1 text with _ | r
      · rcases a with ⟨pat, v⟩
        rw [hq] at h
        exact Option.noConfusion h
      · rcases r with f0 | s0 <;> rcases a with ⟨pat, v⟩ <;> rw [hq] at h
        · exact ih h
        · simp only [Option.some.injEq, Except.ok.injEq] at h
          rw [← h]
          exact hpf pat text s0 hq

theorem anyLiteralMapC_swf (pf : List Char → Parser G)
    (hpf : ∀ pat, SWf (pf pat)) (e : String)
    (m : List (List Char × V)) : SWf (anyLiteralMapC pf e m) :=
  fun t s h => anyLitGo_swf pf hpf e t m s h

/-! ### Loop invariants -/

theorem interHigh_no_error (p : Parser V) (sep : Parser U)
    (text : List Char) (high : Option Nat) :
    ∀ fuel count suc f,
      interHigh p sep text high fuel count suc ≠ some (.error f) := by
  intro fuel
  induction fuel with
  | zero =>
      intro count suc f h
      simp only [interHigh] at h
      split at h
      · exact Option.noConfusion h
      · simp at h
  | succ n ih =>
      intro count suc f h
      simp only [interHigh] at h
      split at h
      · rcases hpr : (prefixC p sep suc.rest).map prDiscardValue
            with _ | r2
        · rw [hpr] at h; exact Option.noConfusion h
        · rcases r2 with f2 | s2 <;> simp only [hpr] at h
          · simp at h
          · split at h
            · simp at h
            · exact ih _ _ _ h
      · simp at h

theorem interLow_error (p : Parser V) (sep : Parser U) (text : List Char)
    (low : Nat) (high : Option Nat) :
    ∀ fuel count suc f,
      interLow p sep text low high fuel count suc = some (.error f) →
      f.rest = text ∧ f.context <+: text := by
  intro fuel
  induction fuel with
  | zero =>
      intro count suc f h
      simp only [interLow] at h
      split at h
      · exact Option.noConfusion h
      · exact absurd h (interHigh_no_error p sep text high 0 count suc f)
  | succ n ih =>
      intro count suc f h
      simp only [interLow] at h
      split at h
      · rcases hpr : (prefixC p sep suc.rest).map
            (fun r => withJoinPrevious (prDiscardValue r) suc text)
            with _ | r2
        · rw [hpr] at h; exact Option.noConfusion h
        · rcases r2 with f2 | s2 <;> simp only [hpr] at h
          · injection h with h
            injection h with h
            subst h
            rcases hpr0 : prefixC p sep suc.rest with _ | r0 <;>
              rw [hpr0] at hpr
            · exact absurd hpr (by simp)
            · simp only [Option.map_some', Option.some.injEq] at hpr
              obtain ⟨f0, _, hff⟩ := withJoinPrevious_error hpr
              rw [hff]
              exact ⟨rfl, List.take_prefix _ _⟩
          · exact ih _ _ _ h
      · exact absurd h
          (interHigh_no_error p sep text high (n + 1) count suc f)

theorem intersperseC_frest {p : Parser V} {sep : Parser U}
    (hp : FRest p) (low : Nat) (high : Option Nat) (fuel : Nat) :
    FRest (intersperseC low high p sep fuel) := by
  intro t f h
  rw [intersperseC] at h
  rcases hq : p t with _ | r
  · simp only [hq] at h
    exact Option.noConfusion h
  rcases r with f0 | s0 <;> simp only [hq] at h
  · split at h
    · simp at h
    · simp only [Option.some.injEq] at h
      injection h with h; rw [← h]
      exact hp t f0 hq
  · exact (interLow_error p sep t low high fuel 1 s0.discardValue f h).1

theorem intersperseC_fpre {p : Parser V} {sep : Parser U}
    (hp : FPre p) (low : Nat) (high : Option Nat) (fuel : Nat) :
    FPre (intersperseC low high p sep fuel) := by
  intro t f h
  rw [intersperseC] at h
  rcases hq : p t with _ | r
  · simp only [hq] at h
    exact Option.noConfusion h
  rcases r with f0 | s0 <;> simp only [hq] at h
  · split at h
    · simp at h
    · simp only [Option.some.injEq] at h
      injection h with h; rw [← h]
      exact hp t f0 hq
  · obtain ⟨h1, h2⟩ := interLow_error p sep t low high fuel 1
      s0.discardValue f h
    rw [h1]; exact h2

theorem interHigh_swf {p : Parser V} {sep : Parser U} {text : List Char}
    {high : Option Nat} (hp : SWf p) (hsep : SWf sep) :
    ∀ fuel count suc s, suc.token ++ suc.rest = text →
      interHigh p sep text high fuel count suc = some (.ok s) →
      s.token ++ s.rest = text := by
  intro fuel
  induction fuel with
  | zero =>
      intro count suc s hinv h
      simp only [interHigh] at h
      split at h
      · exact Option.noConfusion h
      · simp only [Option.some.injEq] at h
        injection h with h; rw [← h]
        exact hinv
  | succ n ih =>
      intro count suc s hinv h
      simp only [interHigh] at h
      split at h
      · rcases hpr : (prefixC p sep suc.rest).map prDiscardValue
            with _ | r2
        · rw [hpr] at h; exact Option.noConfusion h
        · rcases r2 with f2 | s2 <;> simp only [hpr] at h
          · simp only [Option.some.injEq] at h
            injection h with h; rw [← h]
            exact hinv
          · obtain ⟨s0, hs0, hs2⟩ := map_discard_ok.mp hpr
            have hnext : s2.token ++ s2.rest = suc.rest := by
              rw [hs2]
              exact prefixC_swf hp hsep suc.rest s0 hs0
            have hsuc' := joinWith_swf (fun (_ : Unit) (v : Unit) => v)
              hinv hnext
            split at h
            · simp only [Option.some.injEq] at h
              injection h with h; rw [← h]
              rw [mapValue_token, mapValue_rest]
              exact hsuc'
            · exact ih _ _ _ hsuc' h
      · simp only [Option.some.injEq] at h
        injection h with h; rw [← h]
        exact hinv

theorem interLow_swf {p : Parser V} {sep : Parser U} {text : List Char}
    {low : Nat} {high : Option Nat} (hp : SWf p) (hsep : SWf sep) :
    ∀ fuel count suc s, suc.token ++ suc.rest = text →
      interLow p sep text low high fuel count suc = some (.ok s) →
      s.token ++ s.rest = text := by
  intro fuel
  induction fuel with
  | zero =>
      intro count suc s hinv h
      simp only [interLow] at h
      split at h
      · exact Option.noConfusion h
      · exact interHigh_swf hp hsep 0 count suc s hinv h
  | succ n ih =>
      intro count suc s hinv h
      simp only [interLow] at h
      split at h
      · rcases hpr : (prefixC p sep suc.rest).map
            (fun r => withJoinPrevious (prDiscardValue r) suc text)
            with _ | r2
        · rw [hpr] at h; exact Option.noConfusion h
        · rcases r2 with f2 | s2 <;> simp only [hpr] at h
          · simp at h
          · rcases hpr0 : prefixC p sep suc.rest with _ | r0 <;>
              rw [hpr0] at hpr
            · exact absurd hpr (by simp)
            · simp only [Option.map_some', Option.some.injEq] at hpr
              rcases r0 with f0 | s0
              · simp [prDiscardValue, withJoinPrevious] at hpr
              · obtain ⟨s1, hs1, hs2⟩ :=
                  withJoinPrevious_ok (r := prDiscardValue (.ok s0)) hpr
                have hnext : s1.token ++ s1.rest = suc.rest := by
                  injection hs1 with hs1
                  rw [← hs1]
                  exact prefixC_swf hp hsep suc.rest s0 hpr0
                have hsuc' := joinWith_swf (fun (_ : Unit) (v : Unit) => v)
                  hinv hnext
                rw [← hs2] at hsuc'
                exact ih _ _ _ hsuc' h
      · exact interHigh_swf hp hsep (n + 1) count suc s hinv h

theorem intersperseC_swf {p : Parser V} {sep : Parser U} (hp : SWf p)
    (hsep : SWf sep) (low : Nat) (high : Option Nat) (fuel : Nat) :
    SWf (intersperseC low high p sep fuel) := by
  intro t s h
  rw [intersperseC] at h
  rcases hq : p t with _ | r
  · simp only [hq] at h
    exact Option.noConfusion h
  rcases r with f0 | s0 <;> simp only [hq] at h
  · split at h
    · simp only [Option.some.injEq] at h
      injection h with h; rw [← h]
      rfl
    · simp at h
  · exact interLow_swf hp hsep fuel 1 s0.discardValue s (hp t s0 hq) h

theorem interColHigh_no_error (p : Parser V) (sep : Parser U)
    (text : List Char) (high : Option Nat) :
    ∀ fuel count suc f,
      interColHigh p sep text high fuel count suc ≠ some (.error f) := by
  intro fuel
  induction fuel with
  | zero =>
      intro count suc f h
      simp only [interColHigh] at h
      split at h
      · exact Option.noConfusion h
      · simp at h
  | succ n ih =>
      intro count suc f h
      simp only [interColHigh] at h
      split at h
      · rcases hpr : prefixC p sep suc.rest with _ | r2
        · rw [hpr] at h; exact Option.noConfusion h
        · rcases r2 with f2 | s2 <;> simp only [hpr] at h
          · simp at h
          · split at h
            · simp at h
            · exact ih _ _ _ h
      · simp at h

theorem interColLow_fpre {p : Parser V} {sep : Parser U}
    {text : List Char} {low : Nat} {high : Option Nat} (hsep : FPre sep) :
    ∀ fuel count suc f,
      interColLow p sep text low high fuel count suc = some (.error f) →
      f.context <+: f.rest := by
  intro fuel
  induction fuel with
  | zero =>
      intro count suc f h
      simp only [interColLow] at h
      split at h
      · exact Option.noConfusion h
      · exact absurd h (interColHigh_no_error p sep text high 0 count suc f)
  | succ n ih =>
      intro count suc f h
      simp only [interColLow] at h
      split at h
      · rcases hpr : prefixC p sep suc.rest with _ | r2
        · rw [hpr] at h; exact Option.noConfusion h
        · rcases r2 with f2 | s2 <;> simp only [hpr] at h
          · injection h with h
            injection h with h
            subst h
            exact prefixC_fpre hsep suc.rest f2 hpr
          · exact ih _ _ _ h
      · exact absurd h
          (interColHigh_no_error p sep text high (n + 1) count suc f)

theorem intersperseCollectC_fpre {p : Parser V} {sep : Parser U}
    (hp : FPre p) (hsep : FPre sep) (low : Nat) (high : Option Nat)
    (fuel : Nat) : FPre (intersperseCollectC low high p sep fuel) := by
  intro t f h
  rw [intersperseCollectC] at h
  rcases hq : p t with _ | r
  · simp only [hq] at h
    exact Option.noConfusion h
  rcases r with f0 | s0 <;> simp only [hq] at h
  · split at h
    · simp at h
    · simp only [Option.some.injEq] at h
      injection h with h; rw [← h]
      exact hp t f0 hq
  · exact interColLow_fpre hsep fuel 1 (s0.mapValue fun v => [v]) f h

theorem interUntilHigh_no_error (p : Parser V) (sep : Parser U)
    (endp : Parser T) (text : List Char) (high : Option Nat) :
    ∀ fuel count suc f,
      interUntilHigh p sep endp text high fuel count suc ≠
        some (.error f) := by
  intro fuel
  induction fuel with
  | zero =>
      intro count suc f h
      simp only [interUntilHigh] at h
      split at h
      · exact Option.noConfusion h
      · simp at h
  | succ n ih =>
      intro count suc f h
      simp only [interUntilHigh] at h
      split at h
      · rcases he : endp text with _ | re
        · rw [he] at h; exact Option.noConfusion h
        · rcases re with fe | se <;> simp only [he] at h
          · rcases hs : (sep suc.rest).map prDiscardValue with _ | rs
            · rw [hs] at h; exact Option.noConfusion h
            · rcases rs with fs | ss <;> simp only [hs] at h
              · simp at h
              · rcases hq : (prefixC p sep
                    (suc.joinWith ss text fun _ v => v).rest).map
                    prDiscardValue with _ | rq
                · rw [hq] at h; exact Option.noConfusion h
                · rcases rq with fq | sq <;> simp only [hq] at h
                  · simp at h
                  · split at h
                    · simp at h
                    · exact ih _ _ _ h
          · simp at h
      · simp at h

theorem interUntilLow_error (p : Parser V) (sep : Parser U)
    (endp : Parser T) (text : List Char) (low : Nat) (high : Option Nat) :
    ∀ fuel count suc f,
      interUntilLow p sep endp text low high fuel count suc =
        some (.error f) →
      f.rest = text ∧ f.context <+: text := by
  intro fuel
  induction fuel with
  | zero =>
      intro count suc f h
      simp only [interUntilLow] at h
      split at h
      · exact Option.noConfusion h
      · exact absurd h
          (interUntilHigh_no_error p sep endp text high 0 count suc f)
  | succ n ih =>
      intro count suc f h
      simp only [interUntilLow] at h
      split at h
      · rcases he : endp text with _ | re
        · rw [he] at h; exact Option.noConfusion h
        · rcases re with fe | se <;> simp only [he] at h
          · rcases hs : (sep suc.rest).map
                (fun r => withJoinPrevious (prDiscardValue r) suc text)
                with _ | rs
            · rw [hs] at h; exact Option.noConfusion h
            · rcases rs with fs | ss <;> simp only [hs] at h
              · injection h with h
                injection h with h
                subst h
                rcases hs0 : sep suc.rest with _ | rs0 <;> rw [hs0] at hs
                · exact absurd hs (by simp)
                · simp only [Option.map_some', Option.some.injEq] at hs
                  obtain ⟨f0, _, hff⟩ := withJoinPrevious_error hs
                  rw [hff]
                  exact ⟨rfl, List.take_prefix _ _⟩
              · rcases hq : (p ss.rest).map
                    (fun r => withJoinPrevious (prDiscardValue r) ss
                      text) with _ | rq
                · rw [hq] at h; exact Option.noConfusion h
                · rcases rq with fq | sq <;> simp only [hq] at h
                  · injection h with h
                    injection h with h
                    subst h
                    rcases hq0 : p ss.rest with _ | rq0 <;>
                      rw [hq0] at hq
                    · exact absurd hq (by simp)
                    · simp only [Option.map_some',
                        Option.some.injEq] at hq
                      obtain ⟨f0, _, hff⟩ := withJoinPrevious_error hq
                      rw [hff]
                      exact ⟨rfl, List.take_prefix _ _⟩
                  · exact ih _ _ _ h
          · simp at h
      · exact absurd h
          (interUntilHigh_no_error p sep endp text high (n + 1) count suc f)

theorem intersperseUntilC_frest {p : Parser V} {sep : Parser U}
    {endp : Parser T} (hp : FRest p) (low : Nat) (high : Option Nat)
    (fuel : Nat) : FRest (intersperseUntilC low high p sep endp fuel) := by
  intro t f h
  rw [intersperseUntilC] at h
  rcases he : endp t with _ | re
  · simp only [he] at h
    exact Option.noConfusion h
  rcases re with fe | se <;> simp only [he] at h
  · rcases hq : p t with _ | r
    · rw [hq] at h; exact Option.noConfusion h
    rcases r with f0 | s0 <;> simp only [hq] at h
    · split at h
      · simp at h
      · simp only [Option.some.injEq] at h
        injection h with h; rw [← h]
        exact hp t f0 hq
    · exact (interUntilLow_error p sep endp t low high fuel 1
        s0.discardValue f h).1
  · simp at h

theorem intersperseUntilC_fpre {p : Parser V} {sep : Parser U}
    {endp : Parser T} (hp : FPre p) (low : Nat) (high : Option Nat)
    (fuel : Nat) : FPre (intersperseUntilC low high p sep endp fuel) := by
  intro t f h
  rw [intersperseUntilC] at h
  rcases he : endp t with _ | re
  · simp only [he] at h
    exact Option.noConfusion h
  rcases re with fe | se <;> simp only [he] at h
  · rcases hq : p t with _ | r
    · rw [hq] at h; exact Option.noConfusion h
    rcases r with f0 | s0 <;> simp only [hq] at h
    · split at h
      · simp at h
      · simp only [Option.some.injEq] at h
        injection h with h; rw [← h]
        exact hp t f0 hq
    · obtain ⟨h1, h2⟩ := interUntilLow_error p sep endp t low high fuel 1
        s0.discardValue f h
      rw [h1]; exact h2
  · simp at h

theorem interColUntilHigh_no_error (p : Parser V) (sep : Parser U)
    (endp : Parser T) (text : List Char) (high : Option Nat) :
    ∀ fuel count suc f,
      interColUntilHigh p sep endp text high fuel count suc ≠
        some (.error f) := by
  intro fuel
  induction fuel with
  | zero =>
      intro count suc f h
      simp only [interColUntilHigh] at h
      split at h
      · exact Option.noConfusion h
      · simp at h
  | succ n ih =>
      intro count suc f h
      simp only [interColUntilHigh] at h
      split at h
      · rcases he : endp text with _ | re
        · rw [he] at h; exact Option.noConfusion h
        · rcases re with fe | se <;> simp only [he] at h
          · rcases hs : sep suc.rest with _ | rs
            · rw [hs] at h; exact Option.noConfusion h
            · rcases rs with fs | ss <;> simp only [hs] at h
              · simp at h
              · rcases hq : p (suc.joinWith ss text
                    fun vals _ => vals).rest with _ | rq
                · rw [hq] at h; exact Option.noConfusion h
                · rcases rq with fq | sq <;> simp only [hq] at h
                  · simp at h
                  · split at h
                    · simp at h
                    · exact ih _ _ _ h
          · simp at h
      · simp at h

theorem interColUntilLow_fpre {p : Parser V} {sep : Parser U}
    {endp : Parser T} {text : List Char} {low : Nat} {high : Option Nat}
    (hp : FPre p) (hsep : FPre sep) :
    ∀ fuel count suc f,
      interColUntilLow p sep endp text low high fuel count suc =
        some (.error f) →
      f.context <+: f.rest := by
  intro fuel
  induction fuel with
  | zero =>
      intro count suc f h
      simp only [interColUntilLow] at h
      split at h
      · exact Option.noConfusion h
      · exact absurd h
          (interColUntilHigh_no_error p sep endp text high 0 count suc f)
  | succ n ih =>
      intro count suc f h
      simp only [interColUntilLow] at h
      split at h
      · rcases he : endp text with _ | re
        · rw [he] at h; exact Option.noConfusion h
        · rcases re with fe | se <;> simp only [he] at h
          · rcases hs : sep suc.rest with _ | rs
            · rw [hs] at h; exact Option.noConfusion h
            · rcases rs with fs | ss <;> simp only [hs] at h
              · injection h with h
                injection h with h
                subst h
                exact hsep suc.rest fs hs
              · rcases hq : p (suc.joinWith ss text
                    fun vals _ => vals).rest with _ | rq
                · rw [hq] at h; exact Option.noConfusion h
                · rcases rq with fq | sq <;> simp only [hq] at h
                  · injection h with h
                    injection h with h
                    subst h
                    exact hp _ fq hq
                  · exact ih _ _ _ h
          · simp at h
      · exact absurd h
          (interColUntilHigh_no_error p sep endp text high (n + 1) count
            suc f)

theorem intersperseCollectUntilC_fpre {p : Parser V} {sep : Parser U}
    {endp : Parser T} (hp : FPre p) (hsep : FPre sep) (low : Nat)
    (high : Option Nat) (fuel : Nat) :
    FPre (intersperseCollectUntilC low high p sep endp fuel) := by
  intro t f h
  rw [intersperseCollectUntilC] at h
  rcases he : endp t with _ | re
  · simp only [he] at h
    exact Option.noConfusion h
  rcases re with fe | se <;> simp only [he] at h
  · rcases hq : p t with _ | r
    · rw [hq] at h; exact Option.noConfusion h
    rcases r with f0 | s0 <;> simp only [hq] at h
    · split at h
      · simp at h
      · simp only [Option.some.injEq] at h
        injection h with h; rw [← h]
        exact hp t f0 hq
    · exact interColUntilLow_fpre hp hsep fuel 1
        (s0.mapValue fun v => [v]) f h
  · simp at h

/-! ### Invariants of the integer, whitespace and name parsers -/

theorem prTokenizeValue_error {r : ParseResult V} {f : Failure} :
    prTokenizeValue r = .error f ↔ r = .error f := by
  rcases r with f0 | s <;> simp [prTokenizeValue]

theorem uintAccumGo_error (it : String) (radix : Nat)
    (tok text : List Char) :
    ∀ res cs f, uintAccumGo it radix tok text res cs = .error f →
      ∃ v, f = overflowFailure it tok text v := by
  intro res cs
  induction cs generalizing res with
  | nil => intro f h; simp [uintAccumGo] at h
  | cons c cs ih =>
      intro f h
      rw [uintAccumGo] at h
      split at h
      · exact ih _ f h
      · split at h
        · split at h
          · exact ih _ f h
          · exact ⟨_, by injection h with h; rw [← h]⟩
        · exact ⟨_, by injection h with h; rw [← h]⟩

theorem uintDigitsValueP_frest (it : String) (tmax low : Nat)
    (high : Option Nat) (radix : Nat) :
    FRest (uintDigitsValueP it tmax low high radix) := by
  intro t f h
  rw [uintDigitsValueP] at h
  rcases hr : repeatC low high
      (charMatchingP fun c => (charToDigit radix c).isSome || c == '_')
      (t.length + low + 2) t with _ | r
  · simp only [hr] at h
    exact Option.noConfusion h
  rcases r with f0 | s0 <;> simp only [hr] at h
  · rcases hsf : sourceFor (Except.error f0 : ParseResult Nat)
        (it ++ " integer digits with radix " ++ toString radix) with f1 | s1
    · simp only [hsf, Option.some.injEq] at h
      injection h with h
      subst h
      obtain ⟨f2, hf2, hrest, _⟩ := sourceFor_error _ _ _ hsf
      injection hf2 with hf2
      rw [hrest, ← hf2]
      exact intersperseC_frest (charMatchingP_frest _) low high _ t f0 hr
    · exact absurd hsf (by simp [sourceFor])
  · simp only [sourceFor] at h
    rcases ha : uintAccumGo it radix s0.token t 0 s0.token with f1 | v
    · simp only [ha, Option.some.injEq] at h
      injection h with h
      subst h
      obtain ⟨v, hv⟩ := uintAccumGo_error it radix s0.token t 0 s0.token
        f1 ha
      rw [hv]
      rfl
    · simp only [ha] at h
      split at h
      · simp at h
      · simp only [Option.some.injEq] at h
        injection h with h
        subst h
        rfl

theorem uintDigitsValueP_fpre (it : String) (tmax low : Nat)
    (high : Option Nat) (radix : Nat) :
    FPre (uintDigitsValueP it tmax low high radix) := by
  intro t f h
  rw [uintDigitsValueP] at h
  rcases hr : repeatC low high
      (charMatchingP fun c => (charToDigit radix c).isSome || c == '_')
      (t.length + low + 2) t with _ | r
  · simp only [hr] at h
    exact Option.noConfusion h
  rcases r with f0 | s0 <;> simp only [hr] at h
  · rcases hsf : sourceFor (Except.error f0 : ParseResult Nat)
        (it ++ " integer digits with radix " ++ toString radix) with f1 | s1
    · simp only [hsf, Option.some.injEq] at h
      injection h with h
      subst h
      obtain ⟨f2, hf2, hrest, hctx⟩ := sourceFor_error _ _ _ hsf
      injection hf2 with hf2
      rw [hrest, hctx, ← hf2]
      exact intersperseC_fpre (charMatchingP_fpre _) low high _ t f0 hr
    · exact absurd hsf (by simp [sourceFor])
  · have hswf : s0.token ++ s0.rest = t :=
      intersperseC_swf (charMatchingP_swf _) nullP_swf low high _ t s0 hr
    simp only [sourceFor] at h
    rcases ha : uintAccumGo it radix s0.token t 0 s0.token with f1 | v
    · simp only [ha, Option.some.injEq] at h
      injection h with h
      subst h
      obtain ⟨v, hv⟩ := uintAccumGo_error it radix s0.token t 0 s0.token
        f1 ha
      rw [hv]
      show s0.token <+: t
      exact ⟨s0.rest, hswf⟩
    · simp only [ha] at h
      split at h
      · simp at h
      · simp only [Option.some.injEq] at h
        injection h with h
        subst h
        show s0.token <+: t
        exact ⟨s0.rest, hswf⟩

theorem uintValueP_frest (it : String) (tmax radix : Nat) :
    FRest (uintValueP it tmax radix) :=
  uintDigitsValueP_frest it tmax 1 none radix

theorem uintValueP_fpre (it : String) (tmax radix : Nat) :
    FPre (uintValueP it tmax radix) :=
  uintDigitsValueP_fpre it tmax 1 none radix

theorem uintP_frest (it : String) (tmax : Nat) : FRest (uintP it tmax) := by
  intro t f h
  rw [uintP] at h
  rcases hm : maybeC prefixRadixTokenP t with _ | rm
  · rw [hm] at h; exact Option.noConfusion h
  rcases rm with fm | sm
  · simp only [hm] at h
    exact Option.noConfusion h
  simp only [hm] at h
  rcases hrad : radixOf sm.value with _ | radix
  · rw [hrad] at h
    exact Option.noConfusion h
  simp only [hrad] at h
  rcases hv : uintValueP it tmax radix sm.rest with _ | rv
  · rw [hv] at h; exact Option.noConfusion h
  · simp only [hv, Option.map_some', Option.some.injEq] at h
    rcases rv with fv | sv
    · simp only [sourceFor, withJoinPrevious] at h
      injection h with h
      rw [← h]
      rfl
    · simp only [sourceFor, withJoinPrevious] at h
      exact absurd h (by simp)

theorem uintP_fpre (it : String) (tmax : Nat) : FPre (uintP it tmax) := by
  intro t f h
  rw [uintP] at h
  rcases hm : maybeC prefixRadixTokenP t with _ | rm
  · rw [hm] at h; exact Option.noConfusion h
  rcases rm with fm | sm
  · simp only [hm] at h
    exact Option.noConfusion h
  simp only [hm] at h
  rcases hrad : radixOf sm.value with _ | radix
  · rw [hrad] at h
    exact Option.noConfusion h
  simp only [hrad] at h
  rcases hv : uintValueP it tmax radix sm.rest with _ | rv
  · rw [hv] at h; exact Option.noConfusion h
  · simp only [hv, Option.map_some', Option.some.injEq] at h
    rcases rv with fv | sv
    · simp only [sourceFor, withJoinPrevious] at h
      injection h with h
      rw [← h]
      exact joinFailure_fpre _ _ _
    · simp only [sourceFor, withJoinPrevious] at h
      exact absurd h (by simp)

theorem whitespaceP_frest : FRest whitespaceP := by
  intro t f h
  rw [whitespaceP] at h
  rcases hr : repeatC 1 none charWhitespaceP (t.length + 3) t with _ | r
  · rw [hr] at h; exact Option.noConfusion h
  · simp only [hr, Option.map_some', Option.some.injEq] at h
    obtain ⟨f0, hf0, hrest, _⟩ := sourceFor_error _ _ _ h
    rw [prTokenizeValue_error] at hf0
    subst hf0
    rw [hrest]
    exact intersperseC_frest charWhitespaceP_frest 1 none _ t f0 hr

theorem whitespaceP_fpre : FPre whitespaceP := by
  intro t f h
  rw [whitespaceP] at h
  rcases hr : repeatC 1 none charWhitespaceP (t.length + 3) t with _ | r
  · rw [hr] at h; exact Option.noConfusion h
  · simp only [hr, Option.map_some', Option.some.injEq] at h
    obtain ⟨f0, hf0, hrest, hctx⟩ := sourceFor_error _ _ _ h
    rw [prTokenizeValue_error] at hf0
    subst hf0
    rw [hrest, hctx]
    exact intersperseC_fpre charWhitespaceP_fpre 1 none _ t f0 hr

theorem nameP_frest : FRest nameP := by
  intro t f h
  rw [nameP] at h
  rcases hr : repeatC 1 none (charMatchingP nameValidChar)
      (t.length + 3) t with _ | r
  · simp only [hr] at h
    exact Option.noConfusion h
  rcases r with f0 | s0 <;> simp only [hr] at h
  · rcases hsf : sourceFor (Except.error f0 : ParseResult Nat)
        "cell ref name" with f1 | s1
    · simp only [hsf, Option.some.injEq] at h
      injection h with h
      subst h
      obtain ⟨f2, hf2, hrest, _⟩ := sourceFor_error _ _ _ hsf
      injection hf2 with hf2
      rw [hrest, ← hf2]
      exact intersperseC_frest (charMatchingP_frest _) 1 none _ t f0 hr
    · exact absurd hsf (by simp [sourceFor])
  · simp only [sourceFor] at h
    exact absurd h (by simp)

theorem nameP_fpre : FPre nameP := by
  intro t f h
  rw [nameP] at h
  rcases hr : repeatC 1 none (charMatchingP nameValidChar)
      (t.length + 3) t with _ | r
  · simp only [hr] at h
    exact Option.noConfusion h
  rcases r with f0 | s0 <;> simp only [hr] at h
  · rcases hsf : sourceFor (Except.error f0 : ParseResult Nat)
        "cell ref name" with f1 | s1
    · simp only [hsf, Option.some.injEq] at h
      injection h with h
      subst h
      obtain ⟨f2, hf2, hrest, hctx⟩ := sourceFor_error _ _ _ hsf
      injection hf2 with hf2
      rw [hrest, hctx, ← hf2]
      exact intersperseC_fpre (charMatchingP_fpre _) 1 none _ t f0 hr
    · exact absurd hsf (by simp [sourceFor])
  · simp only [sourceFor] at h
    exact absurd h (by simp)

/-! ### Counting behavior of `repeat` -/

theorem prefix_null_of_ok {p : Parser V} {t : List Char} {s : Success V}
    (h : p t = some (.ok s)) :
    (prefixC p nullP t).map prDiscardValue =
      some (.ok { value := (), token := t.take s.token.length,
                  rest := s.rest }) := by
  simp [prefixC, nullP, h, withJoinPrevious, prDiscardValue,
    Success.joinWith, Success.discardValue]

theorem prefix_null_of_error {p : Parser V} {t : List Char} {f : Failure}
    (h : p t = some (.error f)) :
    (prefixC p nullP t).map prDiscardValue =
      some (.error { context := t.take f.context.length,
                     expected := f.expected, source := f.source,
                     rest := t }) := by
  simp [prefixC, nullP, h, withJoinPrevious, prDiscardValue,
    Success.joinFailure]

theorem low_step_ok {p : Parser V} {t text : List Char}
    {suc : Success Unit} {s : Success V} (h : p t = some (.ok s)) :
    (prefixC p nullP t).map
        (fun r => withJoinPrevious (prDiscardValue r) suc text) =
      some (.ok (suc.joinWith
        { value := (), token := t.take s.token.length, rest := s.rest }
        text fun _ v => v)) := by
  simp [prefixC, nullP, h, withJoinPrevious, prDiscardValue,
    Success.joinWith, Success.discardValue]

theorem low_step_error {p : Parser V} {t text : List Char}
    {suc : Success Unit} {f : Failure} (h : p t = some (.error f)) :
    (prefixC p nullP t).map
        (fun r => withJoinPrevious (prDiscardValue r) suc text) =
      some (.error (suc.joinFailure
        { context := t.take f.context.length, expected := f.expected,
          source := f.source, rest := t } text)) := by
  simp [prefixC, nullP, h, withJoinPrevious, prDiscardValue,
    Success.joinFailure]

theorem repeatHigh_none {p : Parser V} {text : List Char}
    {ts : Nat → List Char} {k : Nat} (hok : ChainOk p ts k)
    (hfail : ChainFail p ts k) :
    ∀ fuel i suc, i ≤ k → k - i < fuel → suc.rest = ts i →
      ∃ s, interHigh p nullP text none fuel i suc = some (.ok s) ∧
        s.value = k ∧ s.rest = ts k := by
  intro fuel
  induction fuel with
  | zero => intro i suc _ hf; omega
  | succ n ih =>
      intro i suc hik hf hrest
      rcases Nat.lt_or_ge i k with hlt | hge
      · obtain ⟨si, hsi, hsirest⟩ := hok i hlt
        have hstep := prefix_null_of_ok hsi
        rw [← hrest] at hstep
        obtain ⟨s, hs, hv, hr⟩ := ih (i + 1)
          (suc.joinWith
            { value := (), token := suc.rest.take si.token.length,
              rest := si.rest } text fun _ v => v)
          (by omega) (by omega) (by simp [Success.joinWith, hsirest])
        refine ⟨s, ?_, hv, hr⟩
        rw [interHigh]
        simp only [highCond, highBreak, hstep]
        exact hs
      · have hik' : i = k := by omega
        subst hik'
        obtain ⟨f0, hf0⟩ := hfail
        have hstep := prefix_null_of_error hf0
        rw [← hrest] at hstep
        refine ⟨suc.mapValue fun _ => i, ?_, rfl, ?_⟩
        · rw [interHigh]
          simp [highCond, hstep]
        · rw [mapValue_rest, hrest]

theorem repeatHigh_some {p : Parser V} {text : List Char}
    {ts : Nat → List Char} {k h : Nat} (hok : ChainOk p ts k)
    (hfail : ChainFail p ts k) :
    ∀ fuel i suc, i ≤ k → i ≤ h → min k h - i < fuel →
      suc.rest = ts i →
      ∃ s, interHigh p nullP text (some h) fuel i suc = some (.ok s) ∧
        s.value = min k h ∧ s.rest = ts (min k h) := by
  intro fuel
  induction fuel with
  | zero => intro i suc _ _ hf; omega
  | succ n ih =>
      intro i suc hik hih hf hrest
      rcases Nat.lt_or_ge i h with hlth | hgeh
      · rcases Nat.lt_or_ge i k with hlt | hge
        · obtain ⟨si, hsi, hsirest⟩ := hok i hlt
          have hstep := prefix_null_of_ok hsi
          rw [← hrest] at hstep
          rcases Nat.lt_or_ge (i + 1) h with hbr | hbr
          · obtain ⟨s, hs, hv, hr⟩ := ih (i + 1)
              (suc.joinWith
                { value := (), token := suc.rest.take si.token.length,
                  rest := si.rest } text fun _ v => v)
              (by omega) (by omega) (by omega)
              (by simp [Success.joinWith, hsirest])
            refine ⟨s, ?_, hv, hr⟩
            rw [interHigh]
            have hcond : highCond (some h) i = true := by
              simp [highCond]; omega
            have hbreak : highBreak (some h) (i + 1) = false := by
              simp [highBreak]; omega
            simp only [hcond, hstep, hbreak]
            simpa using hs
          · have hmin : min k h = i + 1 := by omega
            refine ⟨(suc.joinWith
                { value := (), token := suc.rest.take si.token.length,
                  rest := si.rest } text fun _ v => v).mapValue
                  fun _ => i + 1, ?_, ?_, ?_⟩
            · rw [interHigh]
              have hcond : highCond (some h) i = true := by
                simp [highCond]; omega
              have hbreak : highBreak (some h) (i + 1) = true := by
                simp [highBreak]; omega
              simp only [hcond, hstep, hbreak]
              simp
            · simp [Success.mapValue, hmin]
            · simp [Success.mapValue, Success.joinWith, hsirest, hmin]
        · have hik' : i = k := by omega
          subst hik'
          obtain ⟨f0, hf0⟩ := hfail
          have hstep := prefix_null_of_error hf0
          rw [← hrest] at hstep
          have hmin : min i h = i := by omega
          refine ⟨suc.mapValue fun _ => i, ?_, by simp [Success.mapValue, hmin], ?_⟩
          · rw [interHigh]
            have hcond : highCond (some h) i = true := by
              simp [highCond]; omega
            simp [hcond, hstep]
          · rw [mapValue_rest, hrest, hmin]
      · have hih' : i = h := by omega
        subst hih'
        have hmin : min k i = i := by omega
        refine ⟨suc.mapValue fun _ => i, ?_, by simp [Success.mapValue, hmin], ?_⟩
        · rw [interHigh]
          have hcond : highCond (some i) i = false := by
            simp [highCond]
          simp [hcond]
        · rw [mapValue_rest, hrest, hmin]

theorem interLow_skip {p : Parser V} {sep : Parser U} {text : List Char}
    {low : Nat} {high : Option Nat} {fuel count : Nat}
    {suc : Success Unit} (h : ¬ count < low) :
    interLow p sep text low high fuel count suc =
      interHigh p sep text high fuel count suc := by
  cases fuel <;> rw [interLow] <;> simp [h]

theorem repeatLow_phase {p : Parser V} {text : List Char}
    {ts : Nat → List Char} {k low : Nat} {high : Option Nat}
    (hok : ChainOk p ts k) (hlk : low ≤ k) :
    ∀ j fuel i suc, i + j = low → suc.rest = ts i → j ≤ fuel →
      ∃ suc', suc'.rest = ts low ∧
        interLow p nullP text low high fuel i suc =
          interHigh p nullP text high (fuel - j) low suc' := by
  intro j
  induction j with
  | zero =>
      intro fuel i suc hij hrest _
      have : i = low := by omega
      subst this
      refine ⟨suc, hrest, ?_⟩
      cases fuel with
      | zero =>
          rw [interLow]
          simp [Nat.lt_irrefl]
      | succ n =>
          rw [interLow]
          simp [Nat.lt_irrefl]
  | succ j ih =>
      intro fuel i suc hij hrest hjf
      cases fuel with
      | zero => omega
      | succ n =>
          have hilow : i < low := by omega
          obtain ⟨si, hsi, hsirest⟩ := hok i (by omega)
          have hstep := @low_step_ok _ _ _ text suc _ hsi
          rw [← hrest] at hstep
          obtain ⟨suc', hs', heq⟩ := ih n (i + 1)
            (suc.joinWith
              { value := (), token := suc.rest.take si.token.length,
                rest := si.rest } text fun _ v => v)
            (by omega) (by simp [Success.joinWith, hsirest]) (by omega)
          refine ⟨suc', hs', ?_⟩
          rw [interLow]
          simp only [hilow, if_true, hstep]
          rw [heq]
          congr 1
          omega

theorem repeatLow_fail {p : Parser V} {text : List Char}
    {ts : Nat → List Char} {k low : Nat} {high : Option Nat}
    (hok : ChainOk p ts k) (hfail : ChainFail p ts k) (hkl : k < low) :
    ∀ fuel i suc, i ≤ k → k - i < fuel → suc.rest = ts i →
      ∃ f, interLow p nullP text low high fuel i suc =
        some (.error f) := by
  intro fuel
  induction fuel with
  | zero => intro i suc _ hf; omega
  | succ n ih =>
      intro i suc hik hf hrest
      have hilow : i < low := by omega
      rcases Nat.lt_or_ge i k with hlt | hge
      · obtain ⟨si, hsi, hsirest⟩ := hok i hlt
        have hstep := @low_step_ok _ _ _ text suc _ hsi
        rw [← hrest] at hstep
        obtain ⟨f, hfe⟩ := ih (i + 1)
          (suc.joinWith
            { value := (), token := suc.rest.take si.token.length,
              rest := si.rest } text fun _ v => v)
          (by omega) (by omega) (by simp [Success.joinWith, hsirest])
        refine ⟨f, ?_⟩
        rw [interLow]
        simp only [hilow, if_true, hstep]
        exact hfe
      · have hik' : i = k := by omega
        subst hik'
        obtain ⟨f0, hf0⟩ := hfail
        have hstep := @low_step_error _ _ _ text suc _ hf0
        rw [← hrest] at hstep
        refine ⟨suc.joinFailure
          { context := suc.rest.take f0.context.length,
            expected := f0.expected, source := f0.source,
            rest := suc.rest } text, ?_⟩
        rw [interLow]
        simp only [hilow, if_true, hstep]

/-- The counting behavior of `repeat(low, high, p)` on an input with
exactly `k` consecutive matches of `p`, for well-formed bounds. -/
theorem repeatC_chain {p : Parser V} {ts : Nat → List Char}
    {k low : Nat} {high : Option Nat} {fuel : Nat}
    (hok : ChainOk p ts k) (hfail : ChainFail p ts k)
    (hh : HighOk low high)
    (hfuel : k + low + 2 ≤ fuel) :
    (k < low → ∃ f, repeatC low high p fuel (ts 0) = some (.error f)) ∧
    (low ≤ k →
      ∃ s, repeatC low high p fuel (ts 0) = some (.ok s) ∧
        s.value = highCap high k ∧ s.rest = ts (highCap high k)) := by
  constructor
  · intro hkl
    rcases Nat.eq_zero_or_pos k with hk0 | hkpos
    · subst hk0
      obtain ⟨f0, hf0⟩ := hfail
      refine ⟨f0, ?_⟩
      rw [repeatC, intersperseC, hf0]
      have : ¬(low = 0) := by omega
      simp [this]
    · obtain ⟨s0, hs0, hs0rest⟩ := hok 0 (by omega)
      obtain ⟨f, hfe⟩ := repeatLow_fail hok hfail hkl fuel 1
        s0.discardValue (by omega) (by omega)
        (by simp [Success.discardValue, hs0rest])
      refine ⟨f, ?_⟩
      rw [repeatC, intersperseC, hs0]
      exact hfe
  · intro hlk
    rcases Nat.eq_zero_or_pos k with hk0 | hkpos
    · subst hk0
      have hl0 : low = 0 := by omega
      subst hl0
      obtain ⟨f0, hf0⟩ := hfail
      refine ⟨{ value := 0, token := [], rest := ts 0 }, ?_, ?_, ?_⟩
      · rw [repeatC, intersperseC, hf0]
        simp
      · rcases high with _ | h <;> simp [highCap]
      · rcases high with _ | h <;> simp [highCap]
    · obtain ⟨s0, hs0, hs0rest⟩ := hok 0 (by omega)
      rcases Nat.eq_zero_or_pos low with hl0 | hlpos
      · subst hl0
        rcases high with _ | h
        · obtain ⟨s, hs, hv, hr⟩ := repeatHigh_none hok hfail fuel 1
            s0.discardValue (by omega) (by omega)
            (by simp [Success.discardValue, hs0rest])
          refine ⟨s, ?_, hv, hr⟩
          rw [repeatC, intersperseC, hs0]
          exact (interLow_skip (by omega)).trans hs
        · obtain ⟨s, hs, hv, hr⟩ := repeatHigh_some hok hfail fuel 1
            s0.discardValue (by omega) hh.2
            (by have := Nat.min_le_left k h; omega)
            (by simp [Success.discardValue, hs0rest])
          refine ⟨s, ?_, hv, hr⟩
          rw [repeatC, intersperseC, hs0]
          exact (interLow_skip (by omega)).trans hs
      · rcases high with _ | h
        · obtain ⟨suc', hsuc', heq⟩ := @repeatLow_phase _ _ (ts 0) _ _ _
            none hok hlk (low - 1) fuel 1 s0.discardValue
            (by omega) (by simp [Success.discardValue, hs0rest]) (by omega)
          obtain ⟨s, hs, hv, hr⟩ := repeatHigh_none hok hfail
            (fuel - (low - 1)) low suc' hlk (by omega) hsuc'
          refine ⟨s, ?_, hv, hr⟩
          rw [repeatC, intersperseC, hs0]
          exact heq.trans hs
        · obtain ⟨suc', hsuc', heq⟩ := @repeatLow_phase _ _ (ts 0) _ _ _
            (some h) hok hlk (low - 1) fuel 1 s0.discardValue
            (by omega) (by simp [Success.discardValue, hs0rest]) (by omega)
          obtain ⟨s, hs, hv, hr⟩ := repeatHigh_some hok hfail
            (fuel - (low - 1)) low suc' hlk hh.1
            (by have := Nat.min_le_left k h; omega) hsuc'
          refine ⟨s, ?_, hv, hr⟩
          rw [repeatC, intersperseC, hs0]
          exact heq.trans hs

/-! ### `repeat` of a single-char parser: `takeWhile` characterization -/

theorem takeWhile_drop_cons (pred : Char → Bool) :
    ∀ (text : List Char) i, i < (text.takeWhile pred).length →
      ∃ c cs, text.drop i = c :: cs ∧ pred c = true := by
  intro text
  induction text with
  | nil => intro i hi; simp at hi
  | cons a l ih =>
      intro i hi
      by_cases hp : pred a
      · cases i with
        | zero => exact ⟨a, l, rfl, hp⟩
        | succ j =>
            simp only [List.takeWhile_cons, hp, if_true,
              List.length_cons] at hi
            exact ih j (by omega)
      · simp [List.takeWhile_cons, hp] at hi

theorem dropWhile_head_pred_false (pred : Char → Bool) :
    ∀ (l : List Char) c cs, l.dropWhile pred = c :: cs →
      pred c = false := by
  intro l
  induction l with
  | nil => intro c cs h; simp at h
  | cons a l ih =>
      intro c cs h
      by_cases hp : pred a
      · rw [List.dropWhile_cons_of_pos hp] at h
        exact ih c cs h
      · rw [List.dropWhile_cons_of_neg hp] at h
        injection h with h1 _
        rw [← h1]
        simpa using hp

theorem drop_takeWhile_length (pred : Char → Bool) (text : List Char) :
    text.drop (text.takeWhile pred).length = text.dropWhile pred := by
  have h := List.takeWhile_append_dropWhile (p := pred) (l := text)
  calc text.drop (text.takeWhile pred).length
      = (text.takeWhile pred ++ text.dropWhile pred).drop
          (text.takeWhile pred).length := by rw [h]
    _ = text.dropWhile pred := List.drop_left _ _

theorem takeWhile_len_le (pred : Char → Bool) (text : List Char) :
    (text.takeWhile pred).length ≤ text.length := by
  induction text with
  | nil => simp
  | cons a l ih =>
      by_cases hp : pred a
      · simp [List.takeWhile_cons, hp]
        omega
      · simp [List.takeWhile_cons, hp]

theorem charMatching_chainOk (pred : Char → Bool) (text : List Char) :
    ChainOk (charMatchingP pred) (fun i => text.drop i)
      (text.takeWhile pred).length := by
  intro i hi
  obtain ⟨c, cs, hdrop, hpred⟩ := takeWhile_drop_cons pred text i hi
  refine ⟨{ value := c, token := [c], rest := cs }, ?_, ?_⟩
  · show charMatchingP pred (text.drop i) = _
    rw [hdrop]
    simp [charMatchingP, hpred]
  · show cs = text.drop (i + 1)
    have : text.drop (i + 1) = (text.drop i).drop 1 := by
      rw [List.drop_drop]
    rw [this, hdrop]
    rfl

theorem charMatching_chainFail (pred : Char → Bool) (text : List Char) :
    ChainFail (charMatchingP pred) (fun i => text.drop i)
      (text.takeWhile pred).length := by
  show ∃ f, charMatchingP pred
    (text.drop (text.takeWhile pred).length) = some (.error f)
  rw [drop_takeWhile_length]
  rcases hd : text.dropWhile pred with _ | ⟨c, cs⟩
  · exact ⟨{ context := [], expected := "char satisfying predicate",
             source := none, rest := [] }, by simp [charMatchingP]⟩
  · have := dropWhile_head_pred_false pred text c cs hd
    exact ⟨{ context := [], expected := "char satisfying predicate",
             source := none, rest := c :: cs },
      by simp [charMatchingP, this]⟩

theorem eq_take_of_append_drop {a text : List Char} {m : Nat}
    (h : a ++ text.drop m = text) : a = text.take m := by
  rcases le_or_lt m text.length with hm | hm
  · have hlen : a.length + (text.length - m) = text.length := by
      have := congrArg List.length h
      simpa using this
    have hal : a.length = m := by omega
    have h2 : text.take a.length = a := by
      conv_lhs => rw [← h]
      exact List.take_left a _
    rw [← hal, h2]
  · rw [List.drop_eq_nil_of_le (by omega)] at h
    simp only [List.append_nil] at h
    rw [List.take_of_length_le (by omega)]
    exact h

/-- Characterization of `repeat(low, high, char_matching(pred))`: with
`k` the length of the maximal matching prefix, it fails (with pristine
`rest`) when `k < low` and otherwise consumes exactly
`min k high` (resp. `k`) characters, counting them. -/
theorem repeatC_charMatching (pred : Char → Bool) (low : Nat)
    (high : Option Nat) (hh : HighOk low high) (text : List Char)
    (fuel : Nat) (hfuel : text.length + low + 2 ≤ fuel) :
    ((text.takeWhile pred).length < low →
      ∃ f, repeatC low high (charMatchingP pred) fuel text =
          some (.error f) ∧ f.rest = text) ∧
    (low ≤ (text.takeWhile pred).length →
      repeatC low high (charMatchingP pred) fuel text =
        some (.ok
          { value := highCap high (text.takeWhile pred).length,
            token := text.take (highCap high (text.takeWhile pred).length),
            rest :=
              text.drop (highCap high (text.takeWhile pred).length) })) := by
  have hk : (text.takeWhile pred).length ≤ text.length :=
    takeWhile_len_le pred text
  have hchain := @repeatC_chain Char _ _ _ _ _ fuel
    (charMatching_chainOk pred text) (charMatching_chainFail pred text)
    hh (by omega)
  simp only [List.drop_zero] at hchain
  constructor
  · intro hkl
    obtain ⟨f, hf⟩ := hchain.1 hkl
    exact ⟨f, hf, intersperseC_frest (charMatchingP_frest pred) low high
      fuel text f hf⟩
  · intro hlk
    obtain ⟨s, hs, hv, hr⟩ := hchain.2 hlk
    have hswf : s.token ++ s.rest = text :=
      intersperseC_swf (charMatchingP_swf pred) nullP_swf low high fuel
        text s hs
    have hr' : s.rest =
        text.drop (highCap high (text.takeWhile pred).length) := hr
    have htok : s.token =
        text.take (highCap high (text.takeWhile pred).length) := by
      apply eq_take_of_append_drop
      rw [← hr']
      exact hswf
    rw [hs]
    rcases s with ⟨v, tok, rst⟩
    have hv2 : v = highCap high (text.takeWhile pred).length := hv
    have ht2 : tok =
        text.take (highCap high (text.takeWhile pred).length) := htok
    have hr2 : rst =
        text.drop (highCap high (text.takeWhile pred).length) := hr'
    rw [hv2, ht2, hr2]

/-! ### The accumulated value of a digit string -/

theorem accFrom_cons (radix res : Nat) (c : Char) (l : List Char) :
    accFrom radix res (c :: l) =
      accFrom radix (res * radix + (charToDigit radix c).getD 0) l := rfl

theorem accFrom_le (radix : Nat) (hradix : 1 ≤ radix) :
    ∀ (l : List Char) (res : Nat), res ≤ accFrom radix res l := by
  intro l
  induction l with
  | nil => intro res; exact Nat.le_refl res
  | cons c l ih =>
      intro res
      rw [accFrom_cons]
      calc res ≤ res * radix + (charToDigit radix c).getD 0 := by
            have : res * 1 ≤ res * radix := Nat.mul_le_mul_left res hradix
            omega
        _ ≤ _ := ih _

theorem uintAccumGo_ok_val (it : String) (radix : Nat)
    (tok text : List Char) :
    ∀ cs res v, uintAccumGo it radix tok text res cs = .ok v →
      v = accFrom radix res (cs.filter (· ≠ '_')) := by
  intro cs
  induction cs with
  | nil =>
      intro res v h
      simp only [uintAccumGo, Except.ok.injEq] at h
      simp [← h, accFrom]
  | cons c cs ih =>
      intro res v h
      rw [uintAccumGo] at h
      split at h
      · rename_i hc
        have := ih res v h
        simp [List.filter_cons, hc, this]
      · rename_i hc
        split at h
        · split at h
          · have := ih _ v h
            simp only [List.filter_cons]
            have hne : (decide (c ≠ '_')) = true := by simp [hc]
            rw [hne]
            simp only [if_true]
            rw [accFrom_cons]
            exact this
          · exact absurd h (by simp)
        · exact absurd h (by simp)

theorem uintAccumGo_err_val (it : String) (radix : Nat)
    (tok text : List Char) :
    ∀ cs res f, uintAccumGo it radix tok text res cs = .error f →
      ∃ pfx, pfx <+: cs.filter (· ≠ '_') ∧
        f = overflowFailure it tok text (accFrom radix res pfx) := by
  intro cs
  induction cs with
  | nil => intro res f h; simp [uintAccumGo] at h
  | cons c cs ih =>
      intro res f h
      rw [uintAccumGo] at h
      split at h
      · rename_i hc
        obtain ⟨pfx, hp, hf⟩ := ih res f h
        refine ⟨pfx, ?_, hf⟩
        simpa [List.filter_cons, hc] using hp
      · rename_i hc
        have hne : (decide (c ≠ '_')) = true := by simp [hc]
        split at h
        · split at h
          · obtain ⟨pfx, hp, hf⟩ := ih _ f h
            obtain ⟨tl, htl⟩ := hp
            refine ⟨c :: pfx, ?_, ?_⟩
            · simp only [List.filter_cons, hne, if_true]
              exact ⟨tl, by rw [List.cons_append, htl]⟩
            · rw [hf, accFrom_cons]
          · refine ⟨[c], ?_, ?_⟩
            · simp only [List.filter_cons, hne, if_true]
              exact ⟨cs.filter (· ≠ '_'), rfl⟩
            · injection h with h
              rw [← h]
              rfl
        · refine ⟨[], List.nil_prefix, ?_⟩
          injection h with h
          rw [← h]
          rfl

theorem uintAccumGo_ok_of_le (it : String) (radix : Nat)
    (hradix : 1 ≤ radix) (tok text : List Char) :
    ∀ cs res, accFrom radix res (cs.filter (· ≠ '_')) ≤ u64Max →
      uintAccumGo it radix tok text res cs =
        .ok (accFrom radix res (cs.filter (· ≠ '_'))) := by
  intro cs
  induction cs with
  | nil => intro res _; simp [uintAccumGo, accFrom]
  | cons c cs ih =>
      intro res hle
      rw [uintAccumGo]
      by_cases hc : c = '_'
      · rw [if_pos hc]
        rw [ih res (by simpa [List.filter_cons, hc] using hle)]
        congr 1
        simp [List.filter_cons, hc]
      · have hne : (decide (c ≠ '_')) = true := by simp [hc]
        have hfl : (c :: cs).filter (· ≠ '_') =
            c :: cs.filter (· ≠ '_') := by
          simp [List.filter_cons, hc]
        rw [hfl, accFrom_cons] at hle ⊢
        have hstep : res * radix + (charToDigit radix c).getD 0 ≤ u64Max :=
          le_trans (accFrom_le radix hradix _ _) hle
        have hmul : res * radix ≤ u64Max := by omega
        rw [if_neg hc, if_pos hmul, if_pos hstep]
        exact ih _ hle

/-! ### Characterization of `uint_digits_value` -/

theorem uintDigitsValueP_ok_inv (it : String) (tmax low : Nat)
    (high : Option Nat) (radix : Nat) (text : List Char) (s : Success Nat)
    (h : uintDigitsValueP it tmax low high radix text = some (.ok s)) :
    ∃ ds : Success Nat,
      repeatC low high (charMatchingP (digitOrUnderscore radix))
          (text.length + low + 2) text = some (.ok ds) ∧
      s.token = ds.token ∧ s.rest = ds.rest ∧
      uintAccumGo it radix ds.token text 0 ds.token = .ok s.value ∧
      s.value ≤ tmax := by
  rw [uintDigitsValueP] at h
  rcases hr : repeatC low high
      (charMatchingP fun c => (charToDigit radix c).isSome || c == '_')
      (text.length + low + 2) text with _ | r
  · simp only [hr] at h
    exact Option.noConfusion h
  rcases r with f0 | ds <;> simp only [hr] at h
  · rcases hsf : sourceFor (Except.error f0 : ParseResult Nat)
        (it ++ " integer digits with radix " ++ toString radix) with f1 | s1
    · simp only [hsf] at h
      exact absurd h (by simp)
    · exact absurd hsf (by simp [sourceFor])
  · simp only [sourceFor] at h
    rcases ha : uintAccumGo it radix ds.token text 0 ds.token with f1 | v
    · simp only [ha] at h
      exact absurd h (by simp)
    · simp only [ha] at h
      split at h
      · simp only [Option.some.injEq, Except.ok.injEq] at h
        refine ⟨ds, hr, ?_, ?_, ?_, ?_⟩
        · rw [← h]; rfl
        · rw [← h]; rfl
        · rw [← h]; exact ha
        · rw [← h]
          rename_i hle
          exact hle
      · exact absurd h (by simp)

theorem uintDigitsValueP_overflow (it : String) (tmax low : Nat)
    (high : Option Nat) (radix : Nat) (hradix : 1 ≤ radix)
    (hh : HighOk low high) (text : List Char)
    (hlow : low ≤ (text.takeWhile (digitOrUnderscore radix)).length)
    (hover : tmax < digitsValue radix
      ((text.take (highCap high
        (text.takeWhile (digitOrUnderscore radix)).length)).filter
        (· ≠ '_'))) :
    ∃ f o,
      uintDigitsValueP it tmax low high radix text = some (.error f) ∧
      f.context = text.take (highCap high
        (text.takeWhile (digitOrUnderscore radix)).length) ∧
      f.rest = text ∧
      f.expected = "overflow of " ++ it ++ " value" ∧
      f.source = some (.overflow o) ∧
      o.int_type = it ∧
      o.int_text = text.take (highCap high
        (text.takeWhile (digitOrUnderscore radix)).length) ∧
      (digitsValue radix
          ((text.take (highCap high
            (text.takeWhile (digitOrUnderscore radix)).length)).filter
            (· ≠ '_')) ≤ u64Max →
        o.value = digitsValue radix
          ((text.take (highCap high
            (text.takeWhile (digitOrUnderscore radix)).length)).filter
            (· ≠ '_'))) ∧
      ∃ pfx, pfx <+: (text.take (highCap high
          (text.takeWhile (digitOrUnderscore radix)).length)).filter
          (· ≠ '_') ∧
        o.value = digitsValue radix pfx := by
  have hrep := (repeatC_charMatching (digitOrUnderscore radix) low high hh
    text (text.length + low + 2) (by omega)).2 hlow
  set m := highCap high
    (text.takeWhile (digitOrUnderscore radix)).length with hm
  set tok := text.take m with htokdef
  rw [uintDigitsValueP]
  rw [show (fun c => (charToDigit radix c).isSome || c == '_') =
    digitOrUnderscore radix from rfl]
  rw [hrep]
  simp only [sourceFor]
  rcases ha : uintAccumGo it radix tok text 0 tok with f1 | v
  · simp only [ha]
    obtain ⟨pfx, hpfx, hf1⟩ := uintAccumGo_err_val it radix tok text
      tok 0 f1 ha
    refine ⟨f1, ⟨it, tok, accFrom radix 0 pfx⟩,
      rfl, ?_, ?_, ?_, ?_, rfl, rfl, ?_, ?_⟩
    · rw [hf1]; rfl
    · rw [hf1]; rfl
    · rw [hf1]; rfl
    · rw [hf1]; rfl
    · intro hle
      have := uintAccumGo_ok_of_le it radix hradix tok text tok 0 hle
      rw [this] at ha
      exact absurd ha (by simp)
    · exact ⟨pfx, hpfx, rfl⟩
  · simp only [ha]
    have hv : v = digitsValue radix (tok.filter (· ≠ '_')) :=
      uintAccumGo_ok_val it radix tok text tok 0 v ha
    have hnotle : ¬ v ≤ tmax := by rw [hv]; omega
    rw [if_neg hnotle]
    refine ⟨overflowFailure it tok text v, ⟨it, tok, v⟩,
      rfl, rfl, rfl, rfl, rfl, rfl, rfl, ?_, ?_⟩
    · intro _; exact hv
    · exact ⟨tok.filter (· ≠ '_'), List.prefix_refl _, hv⟩

/-! ### Divergence of `repeat` on zero-length matches (C2) -/

theorem interHigh_maybe_diverges (text : List Char) :
    ∀ (fuel count : Nat) (suc : Success Unit), suc.rest = [] →
    interHigh (maybeC (charP 'a')) nullP text none fuel count suc = none := by
  intro fuel
  induction fuel with
  | zero => intro count suc h; rfl
  | succ n ih =>
      intro count suc h
      rw [interHigh]
      have hpre : ((prefixC (maybeC (charP 'a')) nullP suc.rest).map
          prDiscardValue) =
          some (.ok { value := (), token := [], rest := [] }) := by
        rw [h]; rfl
      simp only [hpre]
      have hcond : highCond none count = true := rfl
      rw [if_pos hcond]
      have hbrk : highBreak none (count + 1) = false := rfl
      rw [if_neg (by simp [hbrk])]
      exact ih (count + 1) _ rfl

theorem repeatC_maybe_diverges (fuel : Nat) :
    repeatC 0 none (maybeC (charP 'a')) fuel [] = none := by
  rw [repeatC, intersperseC]
  have h0 : maybeC (charP 'a') [] =
      some (.ok { value := (none : Option Char), token := [], rest := [] }) :=
    rfl
  simp only [h0]
  rw [interLow_skip (by omega)]
  exact interHigh_maybe_diverges [] fuel 1 _ rfl

/-! ### The `until` loops consult the end parser only at the original
input (C4) -/

theorem interUntilHigh_endCongr {p : Parser V} {sep : Parser U}
    {endp endp' : Parser T} {text : List Char} {high : Option Nat}
    (h : endp text = endp' text) :
    ∀ (fuel count : Nat) (suc : Success Unit),
    interUntilHigh p sep endp text high fuel count suc =
      interUntilHigh p sep endp' text high fuel count suc := by
  intro fuel
  induction fuel with
  | zero => intro count suc; rfl
  | succ n ih =>
      intro count suc
      rw [interUntilHigh, interUntilHigh, h]
      rcases he : endp' text with _ | r
      · simp only [he]
      rcases r with fe | e <;> simp only [he]
      rcases hs : (sep suc.rest).map prDiscardValue with _ | r2
      · simp only [hs]
      rcases r2 with fs | sInner <;> simp only [hs]
      rcases hq : (prefixC p sep
          (suc.joinWith sInner text fun _ v => v).rest).map prDiscardValue
        with _ | r3
      · simp only [hq]
      rcases r3 with fq | next <;> simp only [hq]
      split
      · split
        · rfl
        · exact ih _ _
      · rfl

theorem interUntilLow_endCongr {p : Parser V} {sep : Parser U}
    {endp endp' : Parser T} {text : List Char} {low : Nat}
    {high : Option Nat} (h : endp text = endp' text) :
    ∀ (fuel count : Nat) (suc : Success Unit),
    interUntilLow p sep endp text low high fuel count suc =
      interUntilLow p sep endp' text low high fuel count suc := by
  intro fuel
  induction fuel with
  | zero =>
      intro count suc
      rw [interUntilLow, interUntilLow]
      split
      · rfl
      · exact interUntilHigh_endCongr h 0 count suc
  | succ n ih =>
      intro count suc
      rw [interUntilLow, interUntilLow]
      split
      · rw [h]
        rcases he : endp' text with _ | r
        · simp only [he]
        rcases r with fe | e <;> simp only [he]
        rcases hs : (sep suc.rest).map
            (fun r => withJoinPrevious (prDiscardValue r) suc text)
          with _ | r2
        · simp only [hs]
        rcases r2 with fs | suc1 <;> simp only [hs]
        rcases hq : (p suc1.rest).map
            (fun r => withJoinPrevious (prDiscardValue r) suc1 text)
          with _ | r3
        · simp only [hq]
        rcases r3 with fq | suc2 <;> simp only [hq]
        exact ih _ _
      · exact interUntilHigh_endCongr h (n + 1) count suc

theorem intersperseUntilC_endCongr {p : Parser V} {sep : Parser U}
    {endp endp' : Parser T} {text : List Char} {low : Nat}
    {high : Option Nat} {fuel : Nat} (h : endp text = endp' text) :
    intersperseUntilC low high p sep endp fuel text =
      intersperseUntilC low high p sep endp' fuel text := by
  rw [intersperseUntilC, intersperseUntilC, h]
  rcases he : endp' text with _ | r
  · simp only [he]
  rcases r with fe | e <;> simp only [he]
  rcases hp : p text with _ | r2
  · simp only [hp]
  rcases r2 with fp | first <;> simp only [hp]
  exact interUntilLow_endCongr h fuel 1 _

theorem interColUntilHigh_endCongr {p : Parser V} {sep : Parser U}
    {endp endp' : Parser T} {text : List Char} {high : Option Nat}
    (h : endp text = endp' text) :
    ∀ (fuel count : Nat) (suc : Success (List V)),
    interColUntilHigh p sep endp text high fuel count suc =
      interColUntilHigh p sep endp' text high fuel count suc := by
  intro fuel
  induction fuel with
  | zero => intro count suc; rfl
  | succ n ih =>
      intro count suc
      rw [interColUntilHigh, interColUntilHigh, h]
      rcases he : endp' text with _ | r
      · simp only [he]
      rcases r with fe | e <;> simp only [he]
      rcases hs : sep suc.rest with _ | r2
      · simp only [hs]
      rcases r2 with fs | sInner <;> simp only [hs]
      rcases hq : p (suc.joinWith sInner text fun vals _ => vals).rest
        with _ | r3
      · simp only [hq]
      rcases r3 with fq | next <;> simp only [hq]
      split
      · split
        · rfl
        · exact ih _ _
      · rfl

theorem interColUntilLow_endCongr {p : Parser V} {sep : Parser U}
    {endp endp' : Parser T} {text : List Char} {low : Nat}
    {high : Option Nat} (h : endp text = endp' text) :
    ∀ (fuel count : Nat) (suc : Success (List V)),
    interColUntilLow p sep endp text low high fuel count suc =
      interColUntilLow p sep endp' text low high fuel count suc := by
  intro fuel
  induction fuel with
  | zero =>
      intro count suc
      rw [interColUntilLow, interColUntilLow]
      split
      · rfl
      · exact interColUntilHigh_endCongr h 0 count suc
  | succ n ih =>
      intro count suc
      rw [interColUntilLow, interColUntilLow]
      split
      · rw [h]
        rcases he : endp' text with _ | r
        · simp only [he]
        rcases r with fe | e <;> simp only [he]
        rcases hs : sep suc.rest with _ | r2
        · simp only [hs]
        rcases r2 with fs | sInner <;> simp only [hs]
        rcases hq : p (suc.joinWith sInner text fun vals _ => vals).rest
          with _ | r3
        · simp only [hq]
        rcases r3 with fq | next <;> simp only [hq]
        exact ih _ _
      · exact interColUntilHigh_endCongr h (n + 1) count suc

theorem intersperseCollectUntilC_endCongr {p : Parser V} {sep : Parser U}
    {endp endp' : Parser T} {text : List Char} {low : Nat}
    {high : Option Nat} {fuel : Nat} (h : endp text = endp' text) :
    intersperseCollectUntilC low high p sep endp fuel text =
      intersperseCollectUntilC low high p sep endp' fuel text := by
  rw [intersperseCollectUntilC, intersperseCollectUntilC, h]
  rcases he : endp' text with _ | r
  · simp only [he]
  rcases r with fe | e <;> simp only [he]
  rcases hp : p text with _ | r2
  · simp only [hp]
  rcases r2 with fp | first <;> simp only [hp]
  exact interColUntilLow_endCongr h fuel 1 _

theorem intersperseUntilC_initial_end {p : Parser V} {sep : Parser U}
    {endp : Parser T} {text : List Char} {low : Nat} {high : Option Nat}
    {fuel : Nat} {e : Success T} (h : endp text = some (.ok e)) :
    intersperseUntilC low high p sep endp fuel text =
      some (.ok { value := 0, token := e.token, rest := e.rest }) := by
  rw [intersperseUntilC, h]
  rfl

theorem intersperseCollectUntilC_initial_end {p : Parser V}
    {sep : Parser U} {endp : Parser T} {text : List Char} {low : Nat}
    {high : Option Nat} {fuel : Nat} {e : Success T}
    (h : endp text = some (.ok e)) :
    intersperseCollectUntilC low high p sep endp fuel text =
      some (.ok { value := ([] : List V), token := e.token,
                  rest := e.rest }) := by
  rw [intersperseCollectUntilC, h]
  rfl

theorem interUntilLow_end_stops {p : Parser V} {sep : Parser U}
    {endp : Parser T} {text : List Char} {low : Nat} {high : Option Nat}
    {fuel count : Nat} {suc : Success Unit} {e : Success T}
    (h : endp text = some (.ok e)) :
    interUntilLow p sep endp text low high (fuel + 1) count suc =
      some (.ok (suc.mapValue fun _ => count)) := by
  rw [interUntilLow]
  split
  · rw [h]
  · rw [interUntilHigh]
    split
    · rw [h]
    · rfl

/-! ### The failure fold of `color` (C5) -/

theorem colorUpdate_sel (b f : Failure) :
    ((¬ b.context.length < f.context.length) ∧ colorUpdate b f = b) ∨
    (b.context.length < f.context.length ∧
      selectsFailure (colorUpdate b f) f ∧
      (colorUpdate b f).expected = b.expected) := by
  by_cases h : b.context.length < f.context.length
  · right
    refine ⟨h, ⟨?_, ?_, ?_⟩, ?_⟩ <;> simp [colorUpdate, h]
  · left
    exact ⟨h, by simp [colorUpdate, h]⟩

theorem colorUpdate_expected (b f : Failure) :
    (colorUpdate b f).expected = b.expected := by
  rw [colorUpdate]
  split <;> rfl

theorem bestIdx_update {fs : List Failure} {g : Failure} (f : Failure)
    (hb : BestIdx fs g) : BestIdx (fs ++ [f]) (colorUpdate g f) := by
  obtain ⟨i, hi, hsel, hmax, hstrict⟩ := hb
  have hglen : g.context.length = fs[i].context.length := by
    rw [hsel.1]
  rcases colorUpdate_sel g f with ⟨hn, he⟩ | ⟨hl, hs, _⟩
  · refine ⟨i, by simp; omega, ?_, ?_, ?_⟩
    · rw [he, List.getElem_append_left hi]
      exact hsel
    · intro j hj
      rw [List.getElem_append_left hi]
      rcases Nat.lt_or_ge j fs.length with hjl | hjr
      · rw [List.getElem_append_left hjl]
        exact hmax j hjl
      · have hj' : j = fs.length := by
          simp at hj
          omega
        subst hj'
        have : (fs ++ [f])[fs.length] = f := by
          rw [List.getElem_append_right (Nat.le_refl _)]
          simp
        rw [this]
        omega
    · intro j hj hji
      have hjl : j < fs.length := Nat.lt_of_lt_of_le hji (Nat.le_of_lt hi)
      rw [List.getElem_append_left hi, List.getElem_append_left hjl]
      exact hstrict j hjl hji
  · refine ⟨fs.length, by simp, ?_, ?_, ?_⟩
    · have : (fs ++ [f])[fs.length] = f := by
        rw [List.getElem_append_right (Nat.le_refl _)]
        simp
      rw [this]
      exact hs
    · intro j hj
      have hlast : (fs ++ [f])[fs.length] = f := by
        rw [List.getElem_append_right (Nat.le_refl _)]
        simp
      rw [hlast]
      rcases Nat.lt_or_ge j fs.length with hjl | hjr
      · rw [List.getElem_append_left hjl]
        have := hmax j hjl
        omega
      · have hj' : j = fs.length := by
          simp at hj
          omega
        subst hj'
        rw [hlast]
    · intro j hj hji
      have hlast : (fs ++ [f])[fs.length] = f := by
        rw [List.getElem_append_right (Nat.le_refl _)]
        simp
      rw [hlast, List.getElem_append_left hji]
      have := hmax j hji
      omega

/-- C5: amended.  When all color alternatives fail, `color` reports the
failure whose `context` is longest with ties broken in favour of the
earlier attempt — but only among the FIVE functional notations; the hex
alternatives' failures are discarded before the fold starts (the running
failure is seeded from `rgb_functional`'s failure unconditionally), and
the reported `expected` is always `"color value"`. -/
theorem C5_amended {F : Type}
    (fromStr : List Char → Option F) (text : List Char)
    (fh f1 f2 f3 f4 f5 : Failure)
    (hh : rgbHexP F text = some (.error fh))
    (h1 : rgbFunctionalP fromStr text = some (.error f1))
    (h2 : cmykFunctionalP fromStr text = some (.error f2))
    (h3 : hsvFunctionalP fromStr text = some (.error f3))
    (h4 : hslFunctionalP fromStr text = some (.error f4))
    (h5 : xyzFunctionalP fromStr text = some (.error f5)) :
    ∃ g, colorP fromStr text = some (.error g) ∧
      g.expected = "color value" ∧
      BestIdx [f1, f2, f3, f4, f5] g := by
  have hrun : colorP fromStr text = some (.error
      (colorUpdate (colorUpdate (colorUpdate (colorUpdate
        { context := f1.context, expected := "color value",
          source := some f1.toOwned, rest := f1.rest } f2) f3) f4) f5)) := by
    rw [colorP]
    simp only [hh, h1, h2, h3, h4, h5]
  refine ⟨_, hrun, ?_, ?_⟩
  · simp only [colorUpdate_expected]
  · have hb1 : BestIdx [f1]
        { context := f1.context, expected := "color value",
          source := some f1.toOwned, rest := f1.rest } := by
      refine ⟨0, by simp, ⟨rfl, rfl, rfl⟩, ?_, ?_⟩
      · intro j hj
        have : j = 0 := by
          simp at hj
          omega
        subst this
        exact Nat.le_refl _
      · intro j hj hji
        exact absurd hji (Nat.not_lt_zero j)
    have hb2 := bestIdx_update f2 hb1
    have hb3 := bestIdx_update f3 hb2
    have hb4 := bestIdx_update f4 hb3
    have hb5 := bestIdx_update f5 hb4
    exact hb5

/-! ## Remaining helpers for the claim theorems -/

theorem take_of_le_takeWhile {pred : Char → Bool} {text : List Char}
    {m : Nat} (hm : m ≤ (text.takeWhile pred).length) :
    ∀ c ∈ text.take m, pred c = true := by
  intro c hc
  have h1 : text.take m = (text.takeWhile pred).take m := by
    conv_lhs => rw [← List.takeWhile_append_dropWhile (p := pred) (l := text)]
    rw [List.take_append_of_le_length hm]
  rw [h1] at hc
  exact List.mem_takeWhile_imp (List.take_subset m _ hc)

/-! ## The claims -/

/-- C1: refuted as stated.  (i) `repeat_collect(2, None, char('a'))` on
`"ab"` fails after consuming the leading `'a'`: the failure's `rest` is
`"b"`, not the pristine input `"ab"` (the lower loop of the collect
variants propagates the inner failure raw).  (ii) The `float` primitive
also violates the invariant: on `"+"` (lexically admitted, rejected by
the destination type's `from_str`) the conversion failure's `rest` is
`""`, the input after the consumed token, not the pristine `"+"`. -/
theorem C1_counterexample :
    (repeatCollectC 2 none (charP 'a') 9 ['a', 'b'] =
      some (.error { context := [], expected := "a", source := none,
                     rest := ['b'] }) ∧
     (['b'] : List Char) ≠ ['a', 'b']) ∧
    (floatP (F := Unit) (fun _ => none) "f32" ['+'] =
      some (.error { context := ['+'], expected := "parse inf f32",
                     source := some (.externalError "conversion error"),
                     rest := [] }) ∧
     ([] : List Char) ≠ ['+']) :=
  ⟨⟨rfl, by decide⟩, rfl, by decide⟩

/-- C1: amended.  A failure's `rest` equals the pristine input for the
primitives `char`, `char_in`, `char_matching`, `char_whitespace`,
`literal`, `literal_ignore_ascii_case`, `prefix_radix_token`,
`uint_digits_value`, `uint_value`, `uint`, `whitespace` and `name`, and
for the `maybe`/`atomic`/sequence/alternative combinators and the
counting `repeat`/`intersperse`/`_until` family — but NOT for the four
`_collect` variants, whose lower loops propagate inner failures raw, and
NOT for `float`, whose conversion failure keeps the advanced rest (see
the counterexample). -/
theorem C1_amended :
    (∀ (V U : Type) (p : Parser V) (sep : Parser U) low high fuel,
      FRest p → FRest (intersperseC low high p sep fuel)) ∧
    (∀ (V : Type) (p : Parser V) low high fuel,
      FRest p → FRest (repeatC low high p fuel)) ∧
    (∀ (V U T : Type) (p : Parser V) (sep : Parser U) (endp : Parser T)
      low high fuel,
      FRest p → FRest (intersperseUntilC low high p sep endp fuel)) ∧
    (∀ (V T : Type) (p : Parser V) (endp : Parser T) low high fuel,
      FRest p → FRest (repeatUntilC low high p endp fuel)) ∧
    (∀ c, FRest (charP c)) ∧
    (∀ cs, FRest (charInP cs)) ∧
    (∀ pred, FRest (charMatchingP pred)) ∧
    FRest charWhitespaceP ∧
    (∀ l, FRest (literalP l)) ∧
    (∀ l, FRest (literalIgnoreAsciiCaseP l)) ∧
    FRest prefixRadixTokenP ∧
    (∀ it tmax low high radix,
      FRest (uintDigitsValueP it tmax low high radix)) ∧
    (∀ it tmax radix, FRest (uintValueP it tmax radix)) ∧
    (∀ it tmax, FRest (uintP it tmax)) ∧
    FRest whitespaceP ∧
    FRest nameP ∧
    (∀ (V : Type) (p : Parser V), FRest (maybeC p)) ∧
    (∀ (V : Type) (p : Parser V), FRest p → FRest (atomicC p)) ∧
    (∀ (V : Type) (p : Parser V),
      FRest p → FRest (atomicIgnoreWhitespaceC p)) ∧
    (∀ (V U : Type) (p : Parser V) (pre : Parser U),
      FRest pre → FRest (prefixC p pre)) ∧
    (∀ (V U : Type) (pf : Parser V) (ps : Parser U),
      FRest pf → FRest (pairC pf ps)) ∧
    (∀ (V U : Type) (p : Parser V) (post : Parser U),
      FRest p → FRest (postfixC p post)) ∧
    (∀ (V U : Type) (p : Parser V) (circ : Parser U),
      FRest circ → FRest (circumfixC p circ)) ∧
    (∀ (V U T : Type) (p : Parser V) (pre : Parser U) (post : Parser T),
      FRest pre → FRest (bracketC p pre post)) ∧
    (∀ (G V : Type) (pf : List Char → Parser G) (e : String)
      (m : List (List Char × V)), FRest (anyLiteralMapC pf e m)) := by
  refine ⟨?_, ?_, ?_, ?_, charP_frest, charInP_frest, charMatchingP_frest,
    charWhitespaceP_frest, literalP_frest, literalIgnoreAsciiCaseP_frest,
    prefixRadixTokenP_frest, uintDigitsValueP_frest, uintValueP_frest,
    uintP_frest, whitespaceP_frest, nameP_frest, ?_, ?_, ?_, ?_, ?_, ?_,
    ?_, ?_, ?_⟩
  · exact fun V U p sep low high fuel hp =>
      intersperseC_frest hp low high fuel
  · exact fun V p low high fuel hp => intersperseC_frest hp low high fuel
  · exact fun V U T p sep endp low high fuel hp =>
      intersperseUntilC_frest hp low high fuel
  · exact fun V T p endp low high fuel hp =>
      intersperseUntilC_frest hp low high fuel
  · exact fun V p => maybeC_frest p
  · exact fun V p hp => atomicC_frest hp
  · exact fun V p hp => atomicIgnoreWhitespaceC_frest hp
  · exact fun V U p pre hpre => prefixC_frest hpre
  · exact fun V U pf ps hf => pairC_frest hf
  · exact fun V U p post hf => postfixC_frest hf
  · exact fun V U p circ hc => circumfixC_frest hc
  · exact fun V U T p pre post hc => bracketC_frest hc
  · exact fun G V pf e m => anyLiteralMapC_frest pf e m

/-- C1: witness for the amended invariant — `intersperse(2, None,
char('a'), char(','))` on `"ab"` fails and its `rest` is the full
input. -/
theorem C1_amended_witness :
    ∃ f, intersperseC 2 none (charP 'a') (charP ',') 9 ['a', 'b'] =
      some (.error f) ∧ f.rest = ['a', 'b'] :=
  ⟨{ context := ['a'], expected := ",", source := none,
     rest := ['a', 'b'] }, rfl,
   C1_amended.1 Char Char (charP 'a') (charP ',') 2 none 9
     (charP_frest 'a') ['a', 'b'] _ rfl⟩

/-- C2: code bug.  `maybe(char('a'))` succeeds on `""` consuming nothing,
and `repeat(0, None, maybe(char('a')))` then never terminates: for EVERY
fuel bound the (fueled) upper loop runs out of fuel (`none`), i.e. the
unfueled Rust loop spins forever — there is no zero-length-match guard. -/
theorem C2_bug :
    maybeC (charP 'a') [] =
      some (.ok { value := (none : Option Char), token := [],
                  rest := [] }) ∧
    ∀ fuel, repeatC 0 none (maybeC (charP 'a')) fuel [] = none :=
  ⟨rfl, repeatC_maybe_diverges⟩

/-- C3: refuted as stated.  On `"184467440737095516160"` (whose value
exceeds `u64::MAX`) the wide accumulator itself overflows, and the
reported `ParseIntegerOverflow.value` is the partial accumulator at the
moment of overflow (`18446744073709551616`), not the true accumulated
magnitude of the full digit string (`184467440737095516160`). -/
theorem C3_counterexample :
    uintDigitsValueP "u64" u64Max 1 none 10
        "184467440737095516160".data =
      some (.error
        { context := "184467440737095516160".data,
          expected := "overflow of u64 value",
          source := some (.overflow
            { int_type := "u64", int_text := "184467440737095516160".data,
              value := 18446744073709551616 }),
          rest := "184467440737095516160".data }) ∧
    digitsValue 10 "184467440737095516160".data = 184467440737095516160 ∧
    (18446744073709551616 : Nat) ≠ 184467440737095516160 :=
  ⟨rfl, rfl, by decide⟩

/-- C3: amended.  (a) A successful `uint_digits_value` never wraps or
saturates: the value is the exact numeric value of the matched digits
(underscores removed) and is within `T`'s range.  (b) When the matched
digits' value exceeds `T`'s range, the result is a failure whose `source`
is a `ParseIntegerOverflow` carrying the type label and the full digit
token; its `value` is the true accumulated magnitude only when that
magnitude fits in the wide `u64` accumulator — in general it is the
accumulated value of some prefix of the digits (the partial accumulator
at the moment the accumulator itself overflowed).  (c) `uint` surfaces
such a failure as the nested `source` of its own
`"parse ⟨T⟩ value"` failure. -/
theorem C3_amended :
    (∀ (it : String) (tmax low : Nat) (high : Option Nat)
      (radix : Nat) (text : List Char) (s : Success Nat),
      uintDigitsValueP it tmax low high radix text = some (.ok s) →
      s.value = digitsValue radix (s.token.filter (· ≠ '_')) ∧
      s.value ≤ tmax) ∧
    (∀ (it : String) (tmax low : Nat) (high : Option Nat) (radix : Nat)
      (text : List Char), 1 ≤ radix → HighOk low high →
      low ≤ (text.takeWhile (digitOrUnderscore radix)).length →
      tmax < digitsValue radix
        ((text.take (highCap high
          (text.takeWhile (digitOrUnderscore radix)).length)).filter
          (· ≠ '_')) →
      ∃ f o,
        uintDigitsValueP it tmax low high radix text = some (.error f) ∧
        f.context = text.take (highCap high
          (text.takeWhile (digitOrUnderscore radix)).length) ∧
        f.rest = text ∧
        f.expected = "overflow of " ++ it ++ " value" ∧
        f.source = some (.overflow o) ∧
        o.int_type = it ∧
        o.int_text = text.take (highCap high
          (text.takeWhile (digitOrUnderscore radix)).length) ∧
        (digitsValue radix
            ((text.take (highCap high
              (text.takeWhile (digitOrUnderscore radix)).length)).filter
              (· ≠ '_')) ≤ u64Max →
          o.value = digitsValue radix
            ((text.take (highCap high
              (text.takeWhile (digitOrUnderscore radix)).length)).filter
              (· ≠ '_'))) ∧
        ∃ pfx, pfx <+: (text.take (highCap high
            (text.takeWhile (digitOrUnderscore radix)).length)).filter
            (· ≠ '_') ∧
          o.value = digitsValue radix pfx) ∧
    (∀ (it : String) (tmax radix : Nat) (text : List Char)
      (rs : Success (Option (List Char))) (f : Failure),
      maybeC prefixRadixTokenP text = some (.ok rs) →
      radixOf rs.value = some radix →
      uintValueP it tmax radix rs.rest = some (.error f) →
      uintP it tmax text = some (.error
        { context := text.take (rs.token.length + f.context.length),
          expected := "parse " ++ it ++ " value",
          source := some (.failureOwned f.context f.expected f.source),
          rest := text })) := by
  refine ⟨?_, ?_, ?_⟩
  · intro it tmax low high radix text s h
    obtain ⟨ds, hds, htok, hrest, hacc, hle⟩ :=
      uintDigitsValueP_ok_inv it tmax low high radix text s h
    refine ⟨?_, hle⟩
    have hval := uintAccumGo_ok_val it radix ds.token text ds.token 0
      s.value hacc
    rw [htok]
    exact hval
  · intro it tmax low high radix text hradix hh hlow hover
    exact uintDigitsValueP_overflow it tmax low high radix hradix hh text
      hlow hover
  · intro it tmax radix text rs f hm hrad hv
    rw [uintP]
    simp only [hm, hrad, hv, Option.map_some']
    rfl

/-- C3: witness for the amended overflow behaviour — `u8` (range bound
255) on `"300"` fails with an overflow source carrying the full digit
text and the true magnitude 300. -/
theorem C3_amended_witness :
    ∃ f o,
      uintDigitsValueP "u8" 255 1 none 10 ['3', '0', '0'] =
        some (.error f) ∧
      f.context = ['3', '0', '0'] ∧
      f.rest = ['3', '0', '0'] ∧
      f.expected = "overflow of u8 value" ∧
      f.source = some (.overflow o) ∧
      o.int_type = "u8" ∧
      o.int_text = ['3', '0', '0'] ∧
      (digitsValue 10 (['3', '0', '0'].filter (· ≠ '_')) ≤ u64Max →
        o.value = digitsValue 10 (['3', '0', '0'].filter (· ≠ '_'))) ∧
      ∃ pfx, pfx <+: ['3', '0', '0'].filter (· ≠ '_') ∧
        o.value = digitsValue 10 pfx :=
  C3_amended.2.1 "u8" 255 1 none 10 ['3', '0', '0'] (by decide) trivial
    (by decide) (by decide)

/-- C4: refuted as stated.  (i) `intersperse_until` on `"zb"` with end
parser `char('z')` returns a success whose token is `"z"`: an end match
before the first repetition DOES consume the end token.  (ii)
`repeat_until(0, None, char('a'), literal("ab"))` on `"aab"` counts 2
repetitions even though after the first repetition the remaining input is
`"ab"`, where the end parser matches: the end parser is tried against the
ORIGINAL input, not the current position. -/
theorem C4_counterexample :
    (intersperseUntilC 0 none (charP 'a') nullP (charP 'z') 5
        ['z', 'b'] =
      some (.ok { value := 0, token := ['z'], rest := ['b'] }) ∧
      (['z'] : List Char) ≠ []) ∧
    (repeatUntilC 0 none (charP 'a') (literalP ['a', 'b']) 9
        ['a', 'a', 'b'] =
      some (.ok { value := 2, token := ['a', 'a'], rest := ['b'] }) ∧
      literalP ['a', 'b'] ['a', 'b'] =
        some (.ok { value := ['a', 'b'], token := ['a', 'b'],
                    rest := [] }) ∧
      (2 : Nat) ≠ 1) :=
  ⟨⟨rfl, by decide⟩, rfl, rfl, by decide⟩

/-- C4: amended.  In `intersperse_until`/`intersperse_collect_until` (and
hence the `repeat_…` wrappers) the end parser is only ever evaluated
against the ORIGINAL input text: (1) the result depends on the end parser
solely through its outcome at that original text; (2) if the end parser
matches the original text, the repetition ends immediately with count 0
(resp. `[]`) and the end token IS consumed (the end match's own
token/rest are returned); (3) if during the loops the (original-text)
end check reports a match, the repetition stops without consuming
further input, regardless of whether `low` was reached. -/
theorem C4_amended :
    (∀ (V U T : Type) (p : Parser V) (sep : Parser U) (endp : Parser T)
      (low : Nat) (high : Option Nat) (fuel : Nat) (text : List Char)
      (e : Success T), endp text = some (.ok e) →
      intersperseUntilC low high p sep endp fuel text =
        some (.ok { value := 0, token := e.token, rest := e.rest })) ∧
    (∀ (V U T : Type) (p : Parser V) (sep : Parser U) (endp : Parser T)
      (low : Nat) (high : Option Nat) (fuel : Nat) (text : List Char)
      (e : Success T), endp text = some (.ok e) →
      intersperseCollectUntilC low high p sep endp fuel text =
        some (.ok { value := ([] : List V), token := e.token,
                    rest := e.rest })) ∧
    (∀ (V U T : Type) (p : Parser V) (sep : Parser U) (endp : Parser T)
      (low : Nat) (high : Option Nat) (fuel count : Nat)
      (suc : Success Unit) (text : List Char) (e : Success T),
      endp text = some (.ok e) →
      interUntilLow p sep endp text low high (fuel + 1) count suc =
        some (.ok (suc.mapValue fun _ => count))) ∧
    (∀ (V U T : Type) (p : Parser V) (sep : Parser U)
      (endp endp' : Parser T) (low : Nat) (high : Option Nat)
      (fuel : Nat) (text : List Char), endp text = endp' text →
      intersperseUntilC low high p sep endp fuel text =
        intersperseUntilC low high p sep endp' fuel text) ∧
    (∀ (V U T : Type) (p : Parser V) (sep : Parser U)
      (endp endp' : Parser T) (low : Nat) (high : Option Nat)
      (fuel : Nat) (text : List Char), endp text = endp' text →
      intersperseCollectUntilC low high p sep endp fuel text =
        intersperseCollectUntilC low high p sep endp' fuel text) := by
  refine ⟨?_, ?_, ?_, ?_, ?_⟩
  · intro V U T p sep endp low high fuel text e h
    exact intersperseUntilC_initial_end h
  · intro V U T p sep endp low high fuel text e h
    exact intersperseCollectUntilC_initial_end h
  · intro V U T p sep endp low high fuel count suc text e h
    exact interUntilLow_end_stops h
  · intro V U T p sep endp endp' low high fuel text h
    exact intersperseUntilC_endCongr h
  · intro V U T p sep endp endp' low high fuel text h
    exact intersperseCollectUntilC_endCongr h

/-- C4: witness — an initial end match (`char('q')` on `"qa"`) ends
`intersperse_until` with count 0, consuming the end token `"q"`. -/
theorem C4_amended_witness :
    intersperseUntilC 0 none (charP 'a') nullP (charP 'q') 5 ['q', 'a'] =
      some (.ok { value := 0, token := ['q'], rest := ['a'] }) :=
  C4_amended.1 Char Unit Char (charP 'a') nullP (charP 'q') 0 none 5
    ['q', 'a'] { value := 'q', token := ['q'], rest := ['a'] } rfl

/-- C5: refuted as stated.  On `"#12x"` the 6-digit-hex alternative fails
with context `"#12"` (length 3), yet `color` reports the failure with
context `""` (seeded from `rgb_functional`): hex failures are discarded
from the longest-context selection. -/
theorem C5_counterexample :
    colorP (F := Unit) (fun _ => none) ['#', '1', '2', 'x'] =
      some (.error
        { context := [], expected := "color value",
          source := some (.failureOwned [] "ignore case literal rgb"
            none),
          rest := ['#', '1', '2', 'x'] }) ∧
    rgbHexP Unit ['#', '1', '2', 'x'] =
      some (.error
        { context := ['#', '1', '2'],
          expected := "u32 integer digits with radix 16",
          source := some (.failureOwned ['1', '2']
            "char satisfying predicate" none),
          rest := ['#', '1', '2', 'x'] }) ∧
    (0 : Nat) < 3 :=
  ⟨rfl, rfl, by decide⟩

/-- C5: witness for the amended selection — on `"q"` every alternative
fails and `color` reports the (first-attempted) longest-context failure
among the five functional notations. -/
theorem C5_amended_witness :
    ∃ g, colorP (F := Unit) (fun _ => none) ['q'] = some (.error g) ∧
      g.expected = "color value" ∧
      BestIdx
        [{ context := [], expected := "ignore case literal rgb",
           source := none, rest := ['q'] },
         { context := [], expected := "ignore case literal cmyk",
           source := none, rest := ['q'] },
         { context := [], expected := "ignore case literal hsv",
           source := none, rest := ['q'] },
         { context := [], expected := "ignore case literal hsl",
           source := none, rest := ['q'] },
         { context := [], expected := "ignore case literal xyz",
           source := none, rest := ['q'] }] g :=
  C5_amended (fun _ => none) ['q']
    { context := [], expected := "#", source := none, rest := ['q'] }
    { context := [], expected := "ignore case literal rgb",
      source := none, rest := ['q'] }
    { context := [], expected := "ignore case literal cmyk",
      source := none, rest := ['q'] }
    { context := [], expected := "ignore case literal hsv",
      source := none, rest := ['q'] }
    { context := [], expected := "ignore case literal hsl",
      source := none, rest := ['q'] }
    { context := [], expected := "ignore case literal xyz",
      source := none, rest := ['q'] }
    rfl rfl rfl rfl rfl rfl

/-- C6: refuted as stated.  With digit bounds `low = high = 2` in radix
16, `"1_2"` parses as the token `"1_"` with value 1: the underscore IS
counted as a digit toward the `high` bound (stopping the scan before the
`'2'`), though it is skipped in the accumulated value. -/
theorem C6_counterexample :
    uintDigitsValueP "u8" 255 2 (some 2) 16 ['1', '_', '2'] =
      some (.ok { value := 1, token := ['1', '_'], rest := ['2'] }) ∧
    digitsValue 16 ['1', '2'] = 18 ∧
    (1 : Nat) ≠ 18 :=
  ⟨rfl, rfl, by decide⟩

/-- C6: amended.  In any accepted parse of `uint_digits_value`,
underscores are skipped during value accumulation (the value is that of
the token with all underscores removed, with no placement rule), but
every character of the token — underscores included — counts toward the
`low`/`high` digit-count bounds. -/
theorem C6_amended (it : String) (tmax low : Nat) (high : Option Nat)
    (radix : Nat) (text : List Char) (s : Success Nat)
    (hh : HighOk low high)
    (h : uintDigitsValueP it tmax low high radix text = some (.ok s)) :
    s.value = digitsValue radix (s.token.filter (· ≠ '_')) ∧
    (∀ c ∈ s.token, (charToDigit radix c).isSome = true ∨ c = '_') ∧
    low ≤ s.token.length ∧
    (∀ hb, high = some hb → s.token.length ≤ hb) := by
  obtain ⟨ds, hds, htok, hrest, hacc, hle⟩ :=
    uintDigitsValueP_ok_inv it tmax low high radix text s h
  have hcm := repeatC_charMatching (digitOrUnderscore radix) low high hh
    text (text.length + low + 2) (by omega)
  rcases Nat.lt_or_ge
      (text.takeWhile (digitOrUnderscore radix)).length low with hkl | hlk
  · obtain ⟨f, hf, _⟩ := hcm.1 hkl
    exact absurd (hf.symm.trans hds) (by simp)
  have heq := hcm.2 hlk
  have hds2 : Success.mk
      (highCap high (text.takeWhile (digitOrUnderscore radix)).length)
      (text.take
        (highCap high (text.takeWhile (digitOrUnderscore radix)).length))
      (text.drop
        (highCap high (text.takeWhile (digitOrUnderscore radix)).length))
      = ds := by
    have h2 := heq.symm.trans hds
    simp only [Option.some.injEq, Except.ok.injEq] at h2
    exact h2
  have htok2 : s.token = text.take (highCap high
      (text.takeWhile (digitOrUnderscore radix)).length) := by
    rw [htok, ← hds2]
  have hmk : highCap high
      (text.takeWhile (digitOrUnderscore radix)).length ≤
      (text.takeWhile (digitOrUnderscore radix)).length := by
    rcases high with _ | hb
    · exact Nat.le_refl _
    · exact Nat.min_le_left _ _
  have hkt : (text.takeWhile (digitOrUnderscore radix)).length ≤
      text.length := takeWhile_len_le _ _
  have hlen : s.token.length = highCap high
      (text.takeWhile (digitOrUnderscore radix)).length := by
    rw [htok2, List.length_take]
    omega
  refine ⟨?_, ?_, ?_, ?_⟩
  · have hval := uintAccumGo_ok_val it radix ds.token text ds.token 0
      s.value hacc
    rw [htok]
    exact hval
  · intro c hc
    rw [htok2] at hc
    have := take_of_le_takeWhile hmk c hc
    simpa [digitOrUnderscore] using this
  · rw [hlen]
    rcases high with _ | hb
    · exact hlk
    · exact le_min hlk hh.1
  · intro hb hhb
    subst hhb
    rw [hlen]
    exact Nat.min_le_right _ _

/-- C6: witness — `uint_digits_value` for `u8` with bounds 2–2 in radix
16 accepts `"1_2"` with token `"1_"`, whose underscore-free value is 1
and whose length 2 meets the bounds. -/
theorem C6_amended_witness :
    (1 : Nat) = digitsValue 16
        ((['1', '_'] : List Char).filter (· ≠ '_')) ∧
    (∀ c ∈ (['1', '_'] : List Char),
      (charToDigit 16 c).isSome = true ∨ c = '_') ∧
    2 ≤ (['1', '_'] : List Char).length ∧
    (∀ hb, (some 2 : Option Nat) = some hb →
      (['1', '_'] : List Char).length ≤ hb) :=
  C6_amended "u8" 255 2 (some 2) 16 ['1', '_', '2']
    { value := 1, token := ['1', '_'], rest := ['2'] } (by decide) rfl

/-- C7: refuted as stated.  On `"a b"` the `name` parser stops at the
space — which is not one of the five reserved tokens — returning value
`"a"` with rest `" b"`: interior whitespace is NOT permitted. -/
theorem C7_counterexample :
    nameP ['a', ' ', 'b'] =
      some (.ok { value := ['a'], token := ['a'], rest := [' ', 'b'] }) ∧
    rustIsWhitespace ' ' = true ∧
    (' ' ∉ ([REF_ALL_TOKEN, REF_SEP_TOKEN, REF_POS_SEP_TOKEN,
             REF_PREFIX_TOKEN, REF_RANGE_TOKEN] : List Char)) :=
  ⟨rfl, rfl, by decide⟩

/-- C7: amended.  `name` succeeds exactly on one-or-more characters that
are neither one of the five reserved tokens NOR whitespace (interior
whitespace terminates the name); consequently the matched token contains
no whitespace at all and the trim applied to the returned value is the
identity (value = token). -/
theorem C7_amended (text : List Char) :
    ((text.takeWhile nameValidChar).length = 0 →
      ∃ f, nameP text = some (.error f) ∧ f.rest = text) ∧
    (1 ≤ (text.takeWhile nameValidChar).length →
      nameP text = some (.ok
        { value := text.take (text.takeWhile nameValidChar).length,
          token := text.take (text.takeWhile nameValidChar).length,
          rest := text.drop (text.takeWhile nameValidChar).length })) ∧
    (∀ c, nameValidChar c = true ↔
      (c ≠ REF_ALL_TOKEN ∧ c ≠ REF_SEP_TOKEN ∧ c ≠ REF_POS_SEP_TOKEN ∧
       c ≠ REF_PREFIX_TOKEN ∧ c ≠ REF_RANGE_TOKEN ∧
       rustIsWhitespace c = false)) := by
  have hcm := repeatC_charMatching nameValidChar 1 none trivial text
    (text.length + 3) (by omega)
  have hkt : (text.takeWhile nameValidChar).length ≤ text.length :=
    takeWhile_len_le _ _
  refine ⟨?_, ?_, ?_⟩
  · intro hk0
    obtain ⟨f, hf, hfr⟩ := hcm.1 (by omega)
    rw [nameP]
    simp only [hf]
    exact ⟨_, rfl, hfr⟩
  · intro hk1
    have heq := hcm.2 hk1
    have hall : ∀ c ∈ text.take (text.takeWhile nameValidChar).length,
        rustIsWhitespace c = false := by
      intro c hc
      have hv := take_of_le_takeWhile (Nat.le_refl _) c hc
      rw [nameValidChar, Bool.and_eq_true] at hv
      simpa using hv.2
    have hval : trimWs (text.take (text.takeWhile nameValidChar).length) =
        text.take (text.takeWhile nameValidChar).length :=
      trimWs_eq_self hall
    rw [nameP]
    simp only [heq, sourceFor]
    rw [List.length_drop, Nat.sub_sub_self (by exact hkt)]
    rw [hval]
  · intro c
    rw [nameValidChar, Bool.and_eq_true]
    simp [not_or, and_assoc]

/-- C7: witness — `name` on `"xy z"` matches exactly the two non-space,
non-reserved characters. -/
theorem C7_amended_witness :
    nameP ['x', 'y', ' ', 'z'] =
      some (.ok { value := ['x', 'y'], token := ['x', 'y'],
                  rest := [' ', 'z'] }) :=
  (C7_amended ['x', 'y', ' ', 'z']).2.1 (by decide)

/-- C8: refuted as stated.  `repeat(0, Some 0, char('a'))` on `"a"` —
an input with exactly one match — succeeds with count 1, not
`min(1, 0) = 0`: with `high = Some 0` the first unconditional parse is
counted before the bound is ever consulted. -/
theorem C8_counterexample :
    repeatC 0 (some 0) (charP 'a') 9 ['a'] =
      some (.ok { value := 1, token := ['a'], rest := [] }) ∧
    charP 'a' ['a'] =
      some (.ok { value := 'a', token := ['a'], rest := [] }) ∧
    charP 'a' [] =
      some (.error { context := [], expected := "a", source := none,
                     rest := [] }) ∧
    (1 : Nat) ≠ min 1 0 :=
  ⟨rfl, rfl, rfl, by decide⟩

/-- C8: amended.  On an input with exactly `k` consecutive matches of
`p`, `repeat(low, high, p)` fails when `k < low` and succeeds with count
`min(k, high)` (resp. `k` for unbounded `high`) when `k ≥ low` —
PROVIDED the bounds are well-formed (`high`, when given, is at least
`low` and at least 1); outside that range the count can exceed `high`
(see the counterexample). -/
theorem C8_amended (V : Type) (p : Parser V) (ts : Nat → List Char)
    (k low : Nat) (high : Option Nat) (fuel : Nat)
    (hok : ChainOk p ts k) (hfail : ChainFail p ts k)
    (hh : HighOk low high) (hfuel : k + low + 2 ≤ fuel) :
    (k < low → ∃ f, repeatC low high p fuel (ts 0) = some (.error f)) ∧
    (low ≤ k →
      ∃ s, repeatC low high p fuel (ts 0) = some (.ok s) ∧
        s.value = highCap high k ∧ s.rest = ts (highCap high k)) :=
  repeatC_chain hok hfail hh hfuel

/-- C8: witness — `repeat(1, None, char_matching(= 'a'))` on `"aa"`
(exactly two matches) succeeds with count 2 and empty rest. -/
theorem C8_amended_witness :
    ∃ s, repeatC 1 none (charMatchingP (fun c => c == 'a')) 9
        ['a', 'a'] = some (.ok s) ∧
      s.value = 2 ∧ s.rest = [] :=
  (C8_amended Char (charMatchingP (fun c => c == 'a'))
    (fun i => (['a', 'a'] : List Char).drop i)
    ((['a', 'a'] : List Char).takeWhile (fun c => c == 'a')).length 1 none
    9 (charMatching_chainOk _ _) (charMatching_chainFail _ _) trivial
    (by decide)).2 (by decide)

/-- C9: refuted as stated.  The `float` primitive violates the
context-prefix invariant: on `"+"` the conversion failure has context
`"+"` (length 1) and rest `""` (length 0), so `context` is not a prefix
of `rest`, `context.len() > rest.len()`, and `rest_continuing`'s slice
`&rest[context.len()..]` is out of bounds (the list model's `drop`
returns `""`, so `context ++ rest_continuing ≠ rest`). -/
theorem C9_counterexample :
    floatP (F := Unit) (fun _ => none) "f32" ['+'] =
      some (.error { context := ['+'], expected := "parse inf f32",
                     source := some (.externalError "conversion error"),
                     rest := [] }) ∧
    ¬ (['+'] : List Char) <+: [] ∧
    ¬ (['+'] : List Char).length ≤ ([] : List Char).length ∧
    (['+'] : List Char) ++
        ({ context := ['+'], expected := "parse inf f32",
           source := some (.externalError "conversion error"),
           rest := [] } : Failure).restContinuing ≠ [] :=
  ⟨rfl, by decide, by decide, by decide⟩

/-- C9: amended.  Every failure produced by the listed parsers and
context-extension operations — all primitives EXCEPT `float`, every
combinator (collect variants included), `join_failure`,
`with_new_context` under a prefix-shaped new context, and `source_for` —
has `context` a prefix of `rest` (hence `context.len() ≤ rest.len()`),
and `Failure::rest_continuing` — the slice `&rest[context.len()..]` —
is exactly the remainder of `rest` after `context`, so it is in bounds.
`float`'s conversion failure violates the invariant (see the
counterexample). -/
theorem C9_amended :
    (∀ f : Failure, f.context <+: f.rest →
      f.context ++ f.restContinuing = f.rest) ∧
    (∀ f : Failure, f.context <+: f.rest →
      f.context.length ≤ f.rest.length) ∧
    (∀ (V : Type) (s : Success V) (f : Failure) (text : List Char),
      (s.joinFailure f text).context <+: (s.joinFailure f text).rest) ∧
    (∀ (V : Type) (r : ParseResult V) (c t : List Char) (f' : Failure),
      c <+: t → withNewContext r c t = .error f' →
      f'.context <+: f'.rest) ∧
    (∀ (V : Type) (f : Failure) (e : String) (f' : Failure),
      sourceFor (V := V) (.error f) e = .error f' →
      f'.context = f.context ∧ f'.rest = f.rest) ∧
    (∀ c, FPre (charP c)) ∧
    (∀ cs, FPre (charInP cs)) ∧
    (∀ pred, FPre (charMatchingP pred)) ∧
    FPre charWhitespaceP ∧
    (∀ l, FPre (literalP l)) ∧
    (∀ l, FPre (literalIgnoreAsciiCaseP l)) ∧
    FPre prefixRadixTokenP ∧
    (∀ it tmax low high radix,
      FPre (uintDigitsValueP it tmax low high radix)) ∧
    (∀ it tmax radix, FPre (uintValueP it tmax radix)) ∧
    (∀ it tmax, FPre (uintP it tmax)) ∧
    FPre whitespaceP ∧
    FPre nameP ∧
    (∀ (V : Type) (p : Parser V), FPre (maybeC p)) ∧
    (∀ (V : Type) (p : Parser V), FPre p → FPre (atomicC p)) ∧
    (∀ (V : Type) (p : Parser V),
      FPre p → FPre (atomicIgnoreWhitespaceC p)) ∧
    (∀ (V U : Type) (p : Parser V) (pre : Parser U),
      FPre pre → FPre (prefixC p pre)) ∧
    (∀ (V U : Type) (pf : Parser V) (ps : Parser U),
      FPre pf → FPre (pairC pf ps)) ∧
    (∀ (V U : Type) (p : Parser V) (post : Parser U),
      FPre p → FPre (postfixC p post)) ∧
    (∀ (V U : Type) (p : Parser V) (circ : Parser U),
      FPre circ → FPre (circumfixC p circ)) ∧
    (∀ (V U T : Type) (p : Parser V) (pre : Parser U) (post : Parser T),
      FPre pre → FPre (bracketC p pre post)) ∧
    (∀ (G V : Type) (pf : List Char → Parser G) (e : String)
      (m : List (List Char × V)), FPre (anyLiteralMapC pf e m)) ∧
    (∀ (V U : Type) (p : Parser V) (sep : Parser U) low high fuel,
      FPre p → FPre (intersperseC low high p sep fuel)) ∧
    (∀ (V : Type) (p : Parser V) low high fuel,
      FPre p → FPre (repeatC low high p fuel)) ∧
    (∀ (V U T : Type) (p : Parser V) (sep : Parser U) (endp : Parser T)
      low high fuel,
      FPre p → FPre (intersperseUntilC low high p sep endp fuel)) ∧
    (∀ (V T : Type) (p : Parser V) (endp : Parser T) low high fuel,
      FPre p → FPre (repeatUntilC low high p endp fuel)) ∧
    (∀ (V U : Type) (p : Parser V) (sep : Parser U) low high fuel,
      FPre p → FPre sep →
      FPre (intersperseCollectC low high p sep fuel)) ∧
    (∀ (V : Type) (p : Parser V) low high fuel,
      FPre p → FPre (repeatCollectC low high p fuel)) ∧
    (∀ (V U T : Type) (p : Parser V) (sep : Parser U) (endp : Parser T)
      low high fuel, FPre p → FPre sep →
      FPre (intersperseCollectUntilC low high p sep endp fuel)) ∧
    (∀ (V T : Type) (p : Parser V) (endp : Parser T) low high fuel,
      FPre p → FPre (repeatCollectUntilC low high p endp fuel)) := by
  refine ⟨?_, ?_, ?_, ?_, ?_, charP_fpre, charInP_fpre,
    charMatchingP_fpre, charWhitespaceP_fpre, literalP_fpre,
    literalIgnoreAsciiCaseP_fpre, prefixRadixTokenP_fpre,
    uintDigitsValueP_fpre, uintValueP_fpre, uintP_fpre, whitespaceP_fpre,
    nameP_fpre, ?_, ?_, ?_, ?_, ?_, ?_, ?_, ?_, ?_, ?_, ?_, ?_, ?_, ?_,
    ?_, ?_, ?_⟩
  · intro f hpre
    obtain ⟨t, ht⟩ := hpre
    rw [Failure.restContinuing, ← ht, List.drop_left]
  · intro f hpre
    exact List.IsPrefix.length_le hpre
  · intro V s f text
    exact joinFailure_fpre s f text
  · intro V r c t f' hct h
    rcases r with f | s
    · rw [withNewContext] at h
      injection h with h
      rw [← h]
      exact hct
    · rw [withNewContext] at h
      exact Except.noConfusion h
  · intro V f e f' h
    rw [sourceFor] at h
    injection h with h
    rw [← h]
    exact ⟨rfl, rfl⟩
  · exact fun V p => maybeC_fpre p
  · exact fun V p hp => atomicC_fpre hp
  · exact fun V p hp => atomicIgnoreWhitespaceC_fpre hp
  · exact fun V U p pre hpre => prefixC_fpre hpre
  · exact fun V U pf ps hf => pairC_fpre hf
  · exact fun V U p post hf => postfixC_fpre hf
  · exact fun V U p circ hc => circumfixC_fpre hc
  · exact fun V U T p pre post hc => bracketC_fpre hc
  · exact fun G V pf e m => anyLiteralMapC_fpre pf e m
  · exact fun V U p sep low high fuel hp =>
      intersperseC_fpre hp low high fuel
  · exact fun V p low high fuel hp => intersperseC_fpre hp low high fuel
  · exact fun V U T p sep endp low high fuel hp =>
      intersperseUntilC_fpre hp low high fuel
  · exact fun V T p endp low high fuel hp =>
      intersperseUntilC_fpre hp low high fuel
  · exact fun V U p sep low high fuel hp hsep =>
      intersperseCollectC_fpre hp hsep low high fuel
  · exact fun V p low high fuel hp =>
      intersperseCollectC_fpre hp nullP_fpre low high fuel
  · exact fun V U T p sep endp low high fuel hp hsep =>
      intersperseCollectUntilC_fpre hp hsep low high fuel
  · exact fun V T p endp low high fuel hp =>
      intersperseCollectUntilC_fpre hp nullP_fpre low high fuel

/-- C9: witness — on a concrete failure whose context `"a"` prefixes its
rest `"ab"`, `rest_continuing` returns exactly the remainder `"b"`. -/
theorem C9_witness :
    (['a'] : List Char) ++
      ({ context := ['a'], expected := "e", source := none,
         rest := ['a', 'b'] } : Failure).restContinuing = ['a', 'b'] :=
  C9_amended.1
    { context := ['a'], expected := "e", source := none,
      rest := ['a', 'b'] } ⟨['b'], rfl⟩

/-- C10: confirmed.  A string of one or more underscores and no digit at
all satisfies `uint`'s one-or-more digit-character requirement (`_`
counts as a digit character) while contributing nothing to the value:
`uint::<u8>` on `"_"` and `uint::<u32>` on `"___"` succeed with value
0. -/
theorem C10_theorem :
    uintP "u8" 255 ['_'] =
      some (.ok { value := 0, token := ['_'], rest := [] }) ∧
    uintP "u32" u32Max ['_', '_', '_'] =
      some (.ok { value := 0, token := ['_', '_', '_'], rest := [] }) ∧
    (charToDigit 10 '_').isSome = false :=
  ⟨rfl, rfl, by decide⟩

end Atma
